import Mathlib

/-!
Verification of the URL-canonicalization and crawl-orchestration logic of the
`web_crawler_challenge` repository, as a shallow embedding in Lean.

Strings are modelled as `List Char`.  The repository parses URLs with CPython's
`urllib.parse.urlparse`; that parser is embedded faithfully below (`urlsplitM`,
`urlparseM`, modelling the CPython 3.8–3.10 implementation: tab/CR/LF removal,
scheme extraction over `scheme_chars`, netloc splitting with the IPv6-bracket
validity check, fragment and query splits at the first separator, and the
params split applied for schemes in `uses_params`).  The bracket check can
raise in Python, so parsing returns an `Option`.

All other definitions are direct translations of `challenge/utils/url_utils.py`
and `challenge/crawler/crawler.py`.  Fetch results and HTML link extraction are
external collaborators of the repository and enter the model as oracles.
-/

/-- Shorthand turning a string literal into the `List Char` representation used
throughout this development. -/
def S (s : String) : List Char := s.toList

/-- Membership test for a character in a character list, as a `Bool`. -/
def memC (c : Char) (l : List Char) : Bool := l.contains c

/-- Substring test: does `pat` occur contiguously inside `l`?  Mirrors Python's
`pat in s` for a nonempty `pat`. -/
def hasSub (pat : List Char) : List Char → Bool
  | [] => pat.isEmpty
  | c :: rest => pat.isPrefixOf (c :: rest) || hasSub pat rest

/-- Suffix test, mirroring Python's `str.endswith`. -/
def endsWithL (pat l : List Char) : Bool := pat.reverse.isPrefixOf l.reverse

/-- Split a list at the first occurrence of character `c`: returns the part
before and the part after that occurrence (the occurrence itself removed),
or `none` when `c` does not occur.  Mirrors Python's `s.split(c, 1)` /
`s.find(c)` combinations. -/
def splitAtFirst (c : Char) : List Char → Option (List Char × List Char)
  | [] => none
  | a :: rest =>
    if a = c then some ([], rest)
    else (splitAtFirst c rest).map (fun p => (a :: p.1, p.2))

/-- Characters removed from a URL before parsing by CPython's `urlsplit`
(`_UNSAFE_URL_BYTES_TO_REMOVE`): tab, carriage return, line feed. -/
def isRemovedByte (c : Char) : Bool := c = '\t' || c = '\r' || c = '\n'

/-- Python `urllib.parse.scheme_chars`: ASCII letters, digits, `+`, `-`, `.`. -/
def isSchemeChar (c : Char) : Bool := c.isAlpha || c.isDigit || c = '+' || c = '-' || c = '.'

/-- Characters that terminate the netloc in CPython's `_splitnetloc`. -/
def isNetlocDelim (c : Char) : Bool := c = '/' || c = '?' || c = '#'

/-- Result of `urlsplit`: scheme, netloc, path, query, fragment. -/
structure SplitResult where
  scheme : List Char
  netloc : List Char
  path : List Char
  query : List Char
  fragment : List Char
deriving DecidableEq

/-- Result of `urlparse`: `urlsplit` plus the params component split out of the
last path segment. -/
structure ParseResult where
  scheme : List Char
  netloc : List Char
  path : List Char
  params : List Char
  query : List Char
  fragment : List Char
deriving DecidableEq

/-- Scheme extraction step of CPython `urlsplit`: if the URL has a `:` at a
positive position and every character before it is a scheme character, the
lowercased part before the `:` is the scheme and the remainder follows it. -/
def splitScheme (url : List Char) : List Char × List Char :=
  match splitAtFirst ':' url with
  | none => ([], url)
  | some (pre, post) =>
    if pre ≠ [] ∧ pre.all isSchemeChar then (pre.map Char.toLower, post) else ([], url)

/-- Netloc extraction step of CPython `urlsplit`: when the remainder begins
with `//`, the netloc runs up to the first `/`, `?` or `#`. -/
def splitNetlocPair (url : List Char) : List Char × List Char :=
  if (S "//").isPrefixOf url then
    ((url.drop 2).takeWhile (fun c => !isNetlocDelim c),
     (url.drop 2).dropWhile (fun c => !isNetlocDelim c))
  else ([], url)

/-- The IPv6-bracket validity check of CPython `urlsplit`: a netloc holding
`[` without `]` (or vice versa) raises `ValueError`. -/
def badBrackets (netloc : List Char) : Bool :=
  (memC '[' netloc && !memC ']' netloc) || (memC ']' netloc && !memC '[' netloc)

/-- Model of CPython `urllib.parse.urlsplit` (3.8–3.10 behaviour) restricted to
its use in the repository (no default scheme, `allow_fragments=True`).
Returns `none` exactly when Python raises for an invalid IPv6 netloc. -/
def urlsplitM (url : List Char) : Option SplitResult :=
  let url0 := url.filter (fun c => !isRemovedByte c)
  let sr := splitScheme url0
  let nr := splitNetlocPair sr.2
  if badBrackets nr.1 then none
  else
    let fr := (splitAtFirst '#' nr.2).getD (nr.2, [])
    let pq := (splitAtFirst '?' fr.1).getD (fr.1, [])
    some ⟨sr.1, nr.1, pq.1, pq.2, fr.2⟩

/-- Python `urllib.parse.uses_params`. -/
def usesParams : List (List Char) :=
  [S "", S "ftp", S "hdl", S "prospero", S "http", S "imap", S "https", S "shttp",
   S "rtsp", S "rtspu", S "sip", S "sips", S "mms", S "sftp", S "tel"]

/-- Model of CPython `urllib.parse._splitparams`: split the params off the
last path segment.  Only called when `;` occurs in the path. -/
def splitParamsPair (url : List Char) : List Char × List Char :=
  if memC '/' url then
    let afterLastSlash := (url.reverse.takeWhile (fun c => c ≠ '/')).reverse
    match splitAtFirst ';' afterLastSlash with
    | none => (url, [])
    | some (a, b) => (url.take (url.length - afterLastSlash.length) ++ a, b)
  else
    match splitAtFirst ';' url with
    | none => (url, [])
    | some (a, b) => (a, b)

/-- Model of CPython `urllib.parse.urlparse` as used by the repository. -/
def urlparseM (url : List Char) : Option ParseResult :=
  (urlsplitM url).map fun sr =>
    if sr.scheme ∈ usesParams ∧ memC ';' sr.path then
      let (p, params) := splitParamsPair sr.path
      ⟨sr.scheme, sr.netloc, p, params, sr.query, sr.fragment⟩
    else
      ⟨sr.scheme, sr.netloc, sr.path, [], sr.query, sr.fragment⟩

/-- Fields produced by `get_url_info` in `url_utils.py`: protocol, www flag,
domain (netloc with a leading `www.` stripped), path (with `?query` appended
when the query is nonempty), fragment. -/
structure UrlInfo where
  protocol : List Char
  www : Bool
  domain : List Char
  path : List Char
  fragment : List Char
deriving DecidableEq

/-- Model of `get_url_info` in `challenge/utils/url_utils.py`.  Returns `none`
exactly when the underlying parse raises. -/
def get_url_info (url : List Char) : Option UrlInfo :=
  (urlparseM url).map fun p =>
    let path := if p.query = [] then p.path else p.path ++ '?' :: p.query
    let www := (S "www.").isPrefixOf p.netloc
    ⟨p.scheme, www, if www then p.netloc.drop 4 else p.netloc, path, p.fragment⟩

/-- One pass of Python's `str.replace('//', '/')`: left-to-right, non-overlapping. -/
def replaceDS : List Char → List Char
  | [] => []
  | [c] => [c]
  | c₁ :: c₂ :: rest =>
    if c₁ = '/' ∧ c₂ = '/' then '/' :: replaceDS rest
    else c₁ :: replaceDS (c₂ :: rest)

/-- A replacement pass never lengthens the string. -/
theorem replaceDS_length_le : ∀ s : List Char, (replaceDS s).length ≤ s.length := by
  intro s
  induction s using replaceDS.induct with
  | case1 => simp [replaceDS]
  | case2 c => simp [replaceDS]
  | case3 c₁ c₂ rest h ih =>
    simp only [replaceDS, if_pos h, List.length_cons]
    omega
  | case4 c₁ c₂ rest h ih =>
    simp only [replaceDS, if_neg h, List.length_cons]
    simpa using ih

/-- A replacement pass that changes the string strictly shortens it. -/
theorem replaceDS_length_lt : ∀ s : List Char, replaceDS s ≠ s → (replaceDS s).length < s.length := by
  intro s
  induction s using replaceDS.induct with
  | case1 => simp [replaceDS]
  | case2 c => simp [replaceDS]
  | case3 c₁ c₂ rest h ih =>
    intro _
    simp only [replaceDS, if_pos h, List.length_cons]
    have := replaceDS_length_le rest
    omega
  | case4 c₁ c₂ rest h ih =>
    intro hne
    simp only [replaceDS, if_neg h, List.length_cons] at *
    have : replaceDS (c₂ :: rest) ≠ c₂ :: rest := by
      intro he; exact hne (by rw [he])
    have := ih this
    omega

/-- Model of `remove_consecutive_slashes` in `url_utils.py`: iterate the
replacement pass until it reaches a fixpoint. -/
def remove_consecutive_slashes (s : List Char) : List Char :=
  if h : replaceDS s = s then replaceDS s
  else remove_consecutive_slashes (replaceDS s)
termination_by s.length
decreasing_by exact replaceDS_length_lt s h

/-- Number of times the `while` loop body in `remove_consecutive_slashes`
runs: one for every replacement pass after the first that changed the string. -/
def rcsLoopCount (s : List Char) : Nat :=
  if replaceDS s = s then 0
  else 1 + rcsLoopCount (replaceDS s)
termination_by s.length
decreasing_by exact replaceDS_length_lt s (by assumption)

/-- The inner `refactor` helper of `Url._refactor_ending`: collapse duplicate
slashes, turn a bare `/` into the empty string, strip one trailing slash. -/
def refactorText (t : List Char) : List Char :=
  let t1 := if hasSub (S "//") t then remove_consecutive_slashes t else t
  let t2 := if t1 = S "/" then [] else t1
  if endsWithL (S "/") t2 then t2.dropLast else t2

/-- Model of `Url._refactor_path`: join a path against the parent path, with
the pure-fragment-reference override. -/
def refactor_path (path parent_path string_url : List Char) : List Char :=
  let p :=
    if (S "./").isPrefixOf path then parent_path ++ path.drop 1
    else if path ≠ [] ∧ ¬ (S "/").isPrefixOf path then parent_path ++ '/' :: path
    else path
  if parent_path ≠ [] ∧ ((S "#").isPrefixOf string_url ∨ (S "./#").isPrefixOf string_url)
  then parent_path else p

/-- The `Url` class of `url_utils.py`: local and parent-shadow attributes. -/
structure Url where
  string_url : List Char
  parent_protocol : List Char
  parent_www : Option Bool
  parent_domain : List Char
  parent_path : List Char
  protocol : List Char
  www : Bool
  domain : List Char
  path : List Char
  fragment : List Char
  use_parent_protocol : Bool
deriving DecidableEq

/-- The body of `Url.__init__` after `get_url_info` has produced the parsed
attributes: `_fill_parent_attributes`, `_refactor_attributes` (with
`_refactor_path` and `_refactor_ending`), `_refactor_root_attributes`, and the
`use_parent_protocol` assignment. -/
def Url.build (url : List Char) (parent : Option Url) (upp : Bool) (info : UrlInfo) : Url :=
  let pp := match parent with | some p => p.protocol | none => []
  let pw : Option Bool := match parent with | some p => some p.www | none => none
  let pd := match parent with | some p => p.domain | none => []
  let ppath := match parent with | some p => p.path | none => []
  let (protocol, domain, www, path) :=
    if info.domain = [] ∨ info.domain = pd then
      (if info.protocol = [] then pp else info.protocol,
       if info.domain = [] then pd else info.domain,
       if (¬ info.www) ∧ pw ≠ none then pw.getD info.www else info.www,
       refactor_path info.path ppath url)
    else (info.protocol, info.domain, info.www, info.path)
  let path := if path ≠ [] then refactorText path else path
  let fragment := if info.fragment ≠ [] then refactorText info.fragment else info.fragment
  { string_url := url
    parent_protocol := if pp = [] then protocol else pp
    parent_www := if pw = none then some www else pw
    parent_domain := if pd = [] then domain else pd
    parent_path := ppath
    protocol := protocol
    www := www
    domain := domain
    path := path
    fragment := fragment
    use_parent_protocol := match parent with
      | some p => if upp then p.use_parent_protocol else upp
      | none => upp }

/-- Model of `Url.__init__`: `none` exactly when the URL parse raises. -/
def Url.make (url : List Char) (parent : Option Url) (upp : Bool) : Option Url :=
  (get_url_info url).map (Url.build url parent upp)

/-- Model of `Url._get_protocol`. -/
def Url.getProtocol (u : Url) : List Char :=
  if u.use_parent_protocol ∧ u.domain = u.parent_domain ∧
      (u.protocol = [] ∨ (S "http").isPrefixOf u.protocol)
  then u.parent_protocol else u.protocol

/-- Model of `Url.get_basic_url`. -/
def Url.get_basic_url (u : Url) : List Char :=
  if (S "http").isPrefixOf u.getProtocol then u.getProtocol ++ S "://" ++ u.domain ++ u.path
  else u.string_url

/-- Model of `Url.get_full_url`. -/
def Url.get_full_url (u : Url) : List Char :=
  let www := if u.www then S "www." else []
  let fragment := if u.fragment ≠ [] then S "/#" ++ u.fragment else []
  u.getProtocol ++ S "://" ++ www ++ u.domain ++ u.path ++ fragment

/-- Character class `[a-zA-Z0-9@:%._\+~#?&//=]` of the default regex. -/
def isUrlChar1 (c : Char) : Bool := c.isAlpha || c.isDigit || memC c (S "@:%._+~#?&/=")

/-- Character class `[-a-zA-Z0-9@:%._\+~#?&//=]` of the default regex. -/
def isUrlChar2 (c : Char) : Bool := isUrlChar1 c || c = '-'

/-- ASCII word character, for the `\b` assertion of the default regex. -/
def isWordChar (c : Char) : Bool := c.isAlpha || c.isDigit || c = '_'

/-- Match of the default-regex tail `[a-z]{2,6}\b([-a-zA-Z0-9@:%._\+~#?&//=]*)`
against the whole of `l`: some 2–6 lowercase letters, a word boundary, then
the closing character class consuming the rest. -/
def matchTldTail (l : List Char) : Bool :=
  (List.range 5).any fun k =>
    let j := k + 2
    (l.take j).length == j && (l.take j).all Char.isLower &&
    (match l.drop j with
     | [] => true
     | c :: _ => !isWordChar c) &&
    (l.drop j).all isUrlChar2

/-- Match of `[a-zA-Z0-9@:%._\+~#?&//=]{2,256}\.` followed by the TLD tail
against the whole of `l`. -/
def matchMidTail (l : List Char) : Bool :=
  (List.range 255).any fun k =>
    let i := k + 2
    match l.drop i with
    | '.' :: rest => (l.take i).all isUrlChar1 && matchTldTail rest
    | _ => false

/-- Denotation of `re.fullmatch` with `Url._default_regex`
`((http|https)://)(www.)?[a-zA-Z0-9@:%._\+~#?&//=]{2,256}\.[a-z]{2,6}\b([-a-zA-Z0-9@:%._\+~#?&//=]*)`:
the string fully matches exactly when some decomposition along the pattern
works (`.` in the optional `www.` group matching any character but a
newline). -/
def matchesDefaultRegex (l : List Char) : Bool :=
  let afterScheme : List Char → Bool := fun r =>
    matchMidTail r ||
    (match r with
     | 'w' :: 'w' :: 'w' :: c :: rest => (c != '\n') && matchMidTail rest
     | _ => false)
  ((S "http://").isPrefixOf l && afterScheme (l.drop 7)) ||
  ((S "https://").isPrefixOf l && afterScheme (l.drop 8))

/-- Model of `Url.is_valid` with the default regex. -/
def Url.is_valid (u : Url) : Bool :=
  let b := u.get_basic_url
  (S "http").isPrefixOf b && !hasSub (S "/../") b && matchesDefaultRegex b

/-- Model of `Url._is_content_url`. -/
def Url.isContentUrl (u : Url) : Bool :=
  let b := u.get_basic_url
  endsWithL (S ".png") b || endsWithL (S ".pdf") b || endsWithL (S ".jpg") b ||
  endsWithL (S ".jpeg") b || endsWithL (S ".txt") b

/-- Model of `Url.is_crawlable` with the default regex. -/
def Url.is_crawlable (u : Url) : Bool := u.is_valid && !u.isContentUrl

/-- `UrlSet.add`: insert keyed by `get_basic_url`, no-op when the key is
already present. -/
def urlSetAdd (items : List (List Char × Url)) (u : Url) : List (List Char × Url) :=
  if items.any (fun kv => kv.1 == u.get_basic_url) then items
  else items ++ [(u.get_basic_url, u)]

/-- The backing ordered dictionary of a `UrlSet` after adding each Url of the
list in order: keyed by `get_basic_url`, first-seen entry wins. -/
def urlSetBuild (urls : List Url) : List (List Char × Url) :=
  urls.foldl urlSetAdd []

/-- `UrlSet.keys()`. -/
def urlSetKeys (urls : List Url) : List (List Char) := (urlSetBuild urls).map Prod.fst

/-- `UrlSet.values()`. -/
def urlSetValues (urls : List Url) : List Url := (urlSetBuild urls).map Prod.snd

/-- The crawler configuration fields that the modelled logic reads. -/
structure CrawlerConfig where
  root : Url
  max_depth : Option Nat
  max_retries : Nat
  sleep_between_retries : ℚ
  regex_search : Bool
  domain_filter : Bool

/-- Crawler state: the frontier queue of `(Url, depth)` pairs, the
`crawled_urls` insertion-ordered mapping, and a count of pages fetched. -/
structure CrawlerState where
  queue : List (Url × Nat)
  crawled_urls : List (List Char × List (List Char))
  fetches : Nat

/-- Key membership in an insertion-ordered mapping (`dict.keys()` test). -/
def containsKey (m : List (List Char × α)) (k : List Char) : Bool :=
  m.any (fun kv => kv.1 == k)

/-- Value lookup in an insertion-ordered mapping. -/
def lookupKey (m : List (List Char × α)) (k : List Char) : Option α :=
  (m.find? (fun kv => kv.1 == k)).map (·.2)

/-- The initial crawler state: the frontier seeded with `(root, 0)`. -/
def initState (cfg : CrawlerConfig) : CrawlerState := ⟨[(cfg.root, 0)], [], 0⟩

/-- One iteration of `Crawler._queue_processor` together with the
`_add_urls_to_queue` call it makes: dequeue an item; if its canonical form is
already claimed, drop it; otherwise claim it, record the canonical forms of the
extracted children (self-links excluded), and — when under the depth limit —
enqueue the deduplicated children that have the root's domain, are not yet
claimed, and are crawlable, at `depth + 1`.  The links extracted from the
fetched page (the output of `_get_urls`) enter as the oracle `fetchRes`. -/
def processOne (cfg : CrawlerConfig) (fetchRes : Url → List Url) (s : CrawlerState) :
    CrawlerState :=
  match s.queue with
  | [] => s
  | (u, depth) :: rest =>
    let key := u.get_basic_url
    if containsKey s.crawled_urls key then { s with queue := rest }
    else
      let urls := (fetchRes u).filter (fun c => c.get_basic_url ≠ key)
      let basic_urls := urls.map Url.get_basic_url
      let crawled := s.crawled_urls ++ [(key, basic_urls)]
      let depthOk := match cfg.max_depth with
        | none => true
        | some m => decide (depth < m)
      let newItems :=
        if depthOk then
          ((urlSetValues urls).filter (fun c =>
            c.domain == cfg.root.domain && !containsKey crawled c.get_basic_url &&
            c.is_crawlable)).map (fun c => (c, depth + 1))
        else []
      ⟨rest ++ newItems, crawled, s.fetches + 1⟩

/-- Run `n` worker iterations from a state. -/
def crawlRun (cfg : CrawlerConfig) (fetchRes : Url → List Url) :
    Nat → CrawlerState → CrawlerState
  | 0, s => s
  | n + 1, s => crawlRun cfg fetchRes n (processOne cfg fetchRes s)

/-- Outcome of one fetch attempt in `Crawler._get_urls`: a decoded page whose
extracted links are `links`, a `UnicodeDecodeError`, or any other exception. -/
inductive FetchOutcome where
  | success (links : List Url)
  | decodeError
  | transportError

/-- Observable events of `Crawler._get_urls`: an HTTP attempt, or a sleep of a
given duration. -/
inductive FetchEv where
  | attempt
  | sleepEv (d : ℚ)
deriving DecidableEq

/-- Model of `Crawler._get_urls`: the outcome of the `retries`-th attempt is
given by the oracle `fetch`.  Returns the link list produced together with the
trace of attempts and sleeps, in order. -/
def get_urls (fetch : Nat → FetchOutcome) (max_retries : Nat) (sbr : ℚ) (retries : Nat) :
    List Url × List FetchEv :=
  match fetch retries with
  | .decodeError => ([], [.attempt])
  | .success links => (links, [.attempt])
  | .transportError =>
    if retries < max_retries then
      let r := get_urls fetch max_retries sbr (retries + 1)
      (r.1, .attempt :: ((if 0 < sbr then [.sleepEv sbr] else []) ++ r.2))
    else ([], [.attempt])
termination_by max_retries - retries
decreasing_by omega

/-- The regex-search append loop of `Crawler._get_urls_from_text`: starting
from the anchor-derived Urls, append each regex-derived Url whose canonical
form is not already a key of a `UrlSet` built from the list accumulated so
far. -/
def appendRegexMatches (anchors ms : List Url) : List Url :=
  ms.foldl
    (fun urls m =>
      if (urlSetKeys urls).contains m.get_basic_url then urls else urls ++ [m])
    anchors

/-- Model of `Crawler._get_urls_from_text` over the anchor-derived Urls and the
regex-derived Urls (the external HTML parse and the regex scan of the raw page
supply `anchors` and `ms`; each is already converted to a `Url` with the
current page as parent). -/
def getUrlsFromText (cfg : CrawlerConfig) (anchors ms : List Url) : List Url :=
  let urls := if cfg.regex_search then appendRegexMatches anchors ms else anchors
  if cfg.domain_filter then urls.filter (fun v => cfg.root.domain == v.domain) else urls

/-! ## Helper lemmas -/

/-- `remove_consecutive_slashes` reaches a fixpoint of the replacement pass. -/
theorem rcs_fixpoint : ∀ s : List Char,
    replaceDS (remove_consecutive_slashes s) = remove_consecutive_slashes s := by
  intro s
  induction s using remove_consecutive_slashes.induct with
  | case1 s h => rw [remove_consecutive_slashes, dif_pos h, h]; exact h
  | case2 s h ih => rw [remove_consecutive_slashes, dif_neg h]; exact ih

/-- The rewriting loop of `remove_consecutive_slashes` runs at most
`s.length` times. -/
theorem rcsLoopCount_le : ∀ s : List Char, rcsLoopCount s ≤ s.length := by
  intro s
  induction s using rcsLoopCount.induct with
  | case1 s h => rw [rcsLoopCount, if_pos h]; omega
  | case2 s h ih =>
    rw [rcsLoopCount, if_neg h]
    have := replaceDS_length_lt s h
    omega

/-! ## Claims -/

/-- C10: `remove_consecutive_slashes` is a total function: every replacement
pass either leaves the string unchanged (so the loop exits) or strictly
shortens it (each `//` → `/` replacement removes one character), the loop
runs at most length-of-input times, and the returned string is a fixpoint of
the replacement pass. -/
theorem claim_C10 : ∀ s : List Char,
    (replaceDS s = s ∨ (replaceDS s).length < s.length) ∧
    rcsLoopCount s ≤ s.length ∧
    replaceDS (remove_consecutive_slashes s) = remove_consecutive_slashes s := by
  intro s
  refine ⟨?_, rcsLoopCount_le s, rcs_fixpoint s⟩
  by_cases h : replaceDS s = s
  · exact Or.inl h
  · exact Or.inr (replaceDS_length_lt s h)

/-- C8 (corrected): for every input that parses, the `www` flag records
whether the netloc begins with the literal string `www.`, and `domain` is the
netloc with that literal prefix stripped when present — with no case
normalization anywhere. -/
theorem claim_C8 : ∀ url pr, urlparseM url = some pr →
    ∃ info, get_url_info url = some info ∧
      info.www = (S "www.").isPrefixOf pr.netloc ∧
      info.domain = (if (S "www.").isPrefixOf pr.netloc then pr.netloc.drop 4 else pr.netloc) := by
  intro url pr h
  unfold get_url_info
  rw [h]
  exact ⟨_, rfl, rfl, rfl⟩

/-- Witness for C8 at a concrete parse. -/
theorem claim_C8_witness :
    ∃ info, get_url_info (S "http://www.mysite.com/test") = some info ∧
      info.www = (S "www.").isPrefixOf (S "www.mysite.com") ∧
      info.domain =
        (if (S "www.").isPrefixOf (S "www.mysite.com") then (S "www.mysite.com").drop 4
         else S "www.mysite.com") := by
  have h : urlparseM (S "http://www.mysite.com/test") =
      some ⟨S "http", S "www.mysite.com", S "/test", [], [], []⟩ := by decide
  simpa using claim_C8 (S "http://www.mysite.com/test") _ h

/-- Counterexample for C8 as stated: with an uppercase host the domain keeps
its uppercase letters and an uppercase `WWW.` label is not stripped, so the
domain is neither lowercased nor `www`-free. -/
theorem claim_C8_counterexample :
    (get_url_info (S "http://WWW.Example.com/x")).map (fun i => (i.domain, i.www)) =
      some (S "WWW.Example.com", false) ∧
    (S "WWW.Example.com").any (fun c => c.isUpper) = true := by
  constructor
  · decide
  · decide

/-- C4: `is_valid` with the default regex holds exactly when the basic-url
form starts with `http`, does not contain `/../`, and fully matches the
default URL regular expression; and the three given inputs, constructed with
no parent, all fail `is_valid`. -/
theorem claim_C4 :
    (∀ u : Url, u.is_valid =
      ((S "http").isPrefixOf u.get_basic_url && !hasSub (S "/../") u.get_basic_url &&
        matchesDefaultRegex u.get_basic_url)) ∧
    (Url.make (S "mysite.com") none true).map Url.is_valid = some false ∧
    (Url.make (S "mysite.com/about//here") none true).map Url.is_valid = some false ∧
    (Url.make (S "https://mysite.com/here/../there") none true).map Url.is_valid = some false := by
  refine ⟨fun u => rfl, ?_, ?_, ?_⟩ <;> decide

/-- C5: `is_crawlable` holds exactly when `is_valid` holds and the basic url
does not end in one of the five content extensions. -/
theorem claim_C5 : ∀ u : Url, u.is_crawlable =
    (u.is_valid &&
      !(endsWithL (S ".png") u.get_basic_url || endsWithL (S ".pdf") u.get_basic_url ||
        endsWithL (S ".jpg") u.get_basic_url || endsWithL (S ".jpeg") u.get_basic_url ||
        endsWithL (S ".txt") u.get_basic_url)) := by
  intro u
  rfl

/-- Specification-side description of the regex-append loop: a match is
appended exactly when its canonical form is not among the keys accumulated so
far, and an appended match adds its canonical form to those keys. -/
def regexAppendSpec (keys : List (List Char)) : List Url → List Url
  | [] => []
  | m :: rest =>
    if keys.contains m.get_basic_url then regexAppendSpec keys rest
    else m :: regexAppendSpec (keys ++ [m.get_basic_url]) rest

/-- `List.contains` agrees with decidable membership on character lists. -/
theorem containsL_eq (l : List (List Char)) (b : List Char) : l.contains b = decide (b ∈ l) := by
  simp [List.contains, List.elem_eq_mem]

/-- Boolean equality agrees with decidable equality on character lists. -/
theorem beqL_eq_decide (a b : List Char) : (a == b) = decide (a = b) := by
  by_cases h : a = b <;> simp [h]

/-- Adding one Url to a `UrlSet` extends key membership by exactly that Url's
canonical form. -/
theorem urlSetAdd_keys_contains (items : List (List Char × Url)) (u : Url) (b : List Char) :
    ((urlSetAdd items u).map Prod.fst).contains b =
      ((items.map Prod.fst).contains b || b == u.get_basic_url) := by
  rw [containsL_eq, containsL_eq, beqL_eq_decide, ← Bool.decide_or, decide_eq_decide]
  unfold urlSetAdd
  by_cases h : items.any (fun kv => kv.1 == u.get_basic_url)
  · rw [if_pos h]
    constructor
    · exact Or.inl
    · rintro (hb | hb)
      · exact hb
      · subst hb
        simp only [List.any_eq_true, beq_iff_eq] at h
        obtain ⟨kv, hkv, heq⟩ := h
        exact List.mem_map.mpr ⟨kv, hkv, heq⟩
  · rw [if_neg h, List.map_append]
    constructor
    · intro hb
      rcases List.mem_append.mp hb with h1 | h1
      · exact Or.inl h1
      · rw [List.map_cons, List.map_nil] at h1
        exact Or.inr (List.mem_singleton.mp h1)
    · rintro (h1 | h1)
      · exact List.mem_append.mpr (Or.inl h1)
      · subst h1
        exact List.mem_append.mpr (Or.inr (by rw [List.map_cons]; exact List.mem_cons_self _ _))

/-- `UrlSet` key membership coincides with membership among canonical forms of
the listed Urls. -/
theorem urlSetKeys_contains (l : List Url) (b : List Char) :
    (urlSetKeys l).contains b = (l.map Url.get_basic_url).contains b := by
  suffices h : ∀ (items : List (List Char × Url)),
      ((l.foldl urlSetAdd items).map Prod.fst).contains b =
        ((items.map Prod.fst).contains b || (l.map Url.get_basic_url).contains b) by
    have h0 := h []
    rw [List.map_nil] at h0
    rw [show (([] : List (List Char)).contains b) = false from rfl, Bool.false_or] at h0
    exact h0
  induction l with
  | nil =>
    intro items
    rw [List.foldl_nil, List.map_nil]
    rw [show (([] : List (List Char)).contains b) = false from rfl, Bool.or_false]
  | cons u rest ih =>
    intro items
    rw [List.foldl_cons, ih, urlSetAdd_keys_contains, List.map_cons, List.contains_cons]
    rw [Bool.or_assoc, Bool.or_comm (b == u.get_basic_url)]

/-- A fixed Url value, as produced by `Url.make "http://a.com/x" none true`;
used to instantiate hypotheses of the crawler claims at concrete inputs. -/
def exUrlA : Url :=
  ⟨S "http://ab.com/x", S "http", some false, S "ab.com", [], S "http", false,
   S "ab.com", S "/x", [], true⟩

/-- The concrete Url above is what the constructor produces. -/
theorem exUrlA_make : Url.make (S "http://ab.com/x") none true = some exUrlA := by decide

/-- C9 (corrected): the regex-append loop of `_get_urls_from_text` appends a
match exactly when its canonical form is not already present among the
canonical forms of the anchor-derived links *and of the regex matches appended
before it* — the accumulated list, not just the anchor-derived links. -/
theorem claim_C9 : ∀ (anchors ms : List Url),
    appendRegexMatches anchors ms =
      anchors ++ regexAppendSpec (anchors.map Url.get_basic_url) ms := by
  intro anchors ms
  induction ms generalizing anchors with
  | nil => simp [appendRegexMatches, regexAppendSpec]
  | cons m rest ih =>
    show appendRegexMatches (if (urlSetKeys anchors).contains m.get_basic_url then anchors
      else anchors ++ [m]) rest = _
    rw [urlSetKeys_contains]
    by_cases h : (anchors.map Url.get_basic_url).contains m.get_basic_url
    · rw [if_pos h, ih, regexAppendSpec, if_pos h]
    · rw [if_neg h, ih, regexAppendSpec, if_neg h, List.map_append, List.map_cons, List.map_nil,
        List.append_assoc]
      rfl

/-- Counterexample for C9 as stated: with no anchor-derived links and the same
regex match occurring twice, the second occurrence satisfies the stated
condition (its canonical form is not among the anchor-derived canonical forms)
yet it is not appended. -/
theorem claim_C9_counterexample :
    (([] : List Url).map Url.get_basic_url).contains exUrlA.get_basic_url = false ∧
    appendRegexMatches [] [exUrlA, exUrlA] = [exUrlA] := by
  constructor
  · rfl
  · rfl

/-- Looking up a freshly appended key returns its value when the key was not
present before. -/
theorem lookupKey_append_self (m : List (List Char × List (List Char))) (k : List Char)
    (v : List (List Char)) (h : containsKey m k = false) :
    lookupKey (m ++ [(k, v)]) k = some v := by
  induction m with
  | nil =>
    show lookupKey [(k, v)] k = some v
    unfold lookupKey
    rw [List.find?]
    simp
  | cons kv m ih =>
    unfold containsKey at h
    rw [List.any_cons, Bool.or_eq_false_iff] at h
    unfold lookupKey
    rw [List.cons_append, List.find?]
    rw [h.1]
    exact ih h.2

/-- Filtering Urls by canonical form then taking canonical forms equals taking
canonical forms then filtering. -/
theorem map_basic_filter_ne (l : List Url) (k : List Char) :
    ((l.filter (fun c => c.get_basic_url ≠ k)).map Url.get_basic_url) =
      (l.map Url.get_basic_url).filter (fun b => b ≠ k) := by
  induction l with
  | nil => rfl
  | cons u l ih =>
    by_cases h : u.get_basic_url = k
    · simpa [List.filter_cons, h] using ih
    · simpa [List.filter_cons, h] using ih

/-- C6: when a worker claims key `k` and processes its page, the recorded
entry `visited[k]` is exactly the sequence of canonical forms of the extracted
children, in extraction order, duplicates preserved, with every child whose
canonical form equals `k` excluded. -/
theorem claim_C6 : ∀ (cfg : CrawlerConfig) (fetchRes : Url → List Url) (s : CrawlerState)
    (u : Url) (d : Nat) (rest : List (Url × Nat)),
    s.queue = (u, d) :: rest →
    containsKey s.crawled_urls u.get_basic_url = false →
    lookupKey (processOne cfg fetchRes s).crawled_urls u.get_basic_url =
      some (((fetchRes u).map Url.get_basic_url).filter (fun b => b ≠ u.get_basic_url)) := by
  intro cfg fetchRes s u d rest hq hnc
  obtain ⟨q, crawled, f⟩ := s
  simp only at hq hnc
  subst hq
  show lookupKey (CrawlerState.crawled_urls (if containsKey crawled u.get_basic_url then _ else _))
    u.get_basic_url = _
  rw [if_neg (by rw [hnc]; exact Bool.false_ne_true)]
  rw [← map_basic_filter_ne]
  exact lookupKey_append_self crawled u.get_basic_url _ hnc

/-- A second fixed constructed Url, distinct from `exUrlA`. -/
def exUrlC : Url :=
  ⟨S "http://ab.com/y", S "http", some false, S "ab.com", [], S "http", false,
   S "ab.com", S "/y", [], true⟩

/-- A fixed crawler configuration rooted at `exUrlA`. -/
def exCfg : CrawlerConfig := ⟨exUrlA, none, 5, 3 / 10, false, true⟩

/-- Witness for C6: processing the seeded root with a fetch that returns one
self-link and one other link records only the other link. -/
theorem claim_C6_witness :
    lookupKey (processOne exCfg (fun _ => [exUrlA, exUrlC]) (initState exCfg)).crawled_urls
        exUrlA.get_basic_url =
      some ((([exUrlA, exUrlC].map Url.get_basic_url)).filter
        (fun b => b ≠ exUrlA.get_basic_url)) :=
  claim_C6 exCfg (fun _ => [exUrlA, exUrlC]) (initState exCfg) exUrlA 0 [] rfl rfl

/-- Equation: a decode error is terminal. -/
theorem get_urls_eq_decode (fetch : Nat → FetchOutcome) (mr : Nat) (sbr : ℚ) (retries : Nat)
    (h : fetch retries = .decodeError) : get_urls fetch mr sbr retries = ([], [.attempt]) := by
  rw [get_urls, h]

/-- Equation: a successful fetch returns its links after one attempt. -/
theorem get_urls_eq_success (fetch : Nat → FetchOutcome) (mr : Nat) (sbr : ℚ) (retries : Nat)
    (links : List Url) (h : fetch retries = .success links) :
    get_urls fetch mr sbr retries = (links, [.attempt]) := by
  rw [get_urls, h]

/-- Equation: a transport error with retries remaining recurses after an
optional sleep. -/
theorem get_urls_eq_transport_pos (fetch : Nat → FetchOutcome) (mr : Nat) (sbr : ℚ)
    (retries : Nat) (h : fetch retries = .transportError) (hlt : retries < mr) :
    get_urls fetch mr sbr retries =
      ((get_urls fetch mr sbr (retries + 1)).1,
        .attempt :: ((if 0 < sbr then [.sleepEv sbr] else []) ++
          (get_urls fetch mr sbr (retries + 1)).2)) := by
  rw [get_urls, h, if_pos hlt]

/-- Equation: a transport error with retries exhausted returns an empty list. -/
theorem get_urls_eq_transport_neg (fetch : Nat → FetchOutcome) (mr : Nat) (sbr : ℚ)
    (retries : Nat) (h : fetch retries = .transportError) (hge : ¬ retries < mr) :
    get_urls fetch mr sbr retries = ([], [.attempt]) := by
  rw [get_urls, h, if_neg hge]

/-- Behaviour of `_get_urls` from an arbitrary starting retry count: the
number of attempts is bounded, a decode error is terminal with no retry, an
always-failing transport exhausts exactly the remaining retries and returns an
empty list, and every non-attempt event is a sleep of `sleep_between_retries`
performed only when that duration is positive. -/
theorem get_urls_spec (fetch : Nat → FetchOutcome) (mr : Nat) (sbr : ℚ) :
    ∀ retries,
      ((get_urls fetch mr sbr retries).2.count .attempt ≤ mr - retries + 1) ∧
      (fetch retries = .decodeError → get_urls fetch mr sbr retries = ([], [.attempt])) ∧
      ((∀ i, fetch i = .transportError) →
        (get_urls fetch mr sbr retries).1 = [] ∧
        (get_urls fetch mr sbr retries).2.count .attempt = mr - retries + 1) ∧
      (∀ e ∈ (get_urls fetch mr sbr retries).2, e = .attempt ∨ (e = .sleepEv sbr ∧ 0 < sbr)) := by
  have hcount : ∀ (t : List FetchEv),
      (FetchEv.attempt :: ((if 0 < sbr then [FetchEv.sleepEv sbr] else []) ++ t)).count
          FetchEv.attempt = t.count FetchEv.attempt + 1 := by
    intro t
    rw [List.count_cons, List.count_append]
    by_cases hs : 0 < sbr
    · rw [if_pos hs]
      simp [List.count_cons, List.count_nil]
    · rw [if_neg hs]
      simp [List.count_nil]
  suffices h : ∀ n retries, mr - retries = n →
      ((get_urls fetch mr sbr retries).2.count .attempt ≤ mr - retries + 1) ∧
      (fetch retries = .decodeError → get_urls fetch mr sbr retries = ([], [.attempt])) ∧
      ((∀ i, fetch i = .transportError) →
        (get_urls fetch mr sbr retries).1 = [] ∧
        (get_urls fetch mr sbr retries).2.count .attempt = mr - retries + 1) ∧
      (∀ e ∈ (get_urls fetch mr sbr retries).2, e = .attempt ∨ (e = .sleepEv sbr ∧ 0 < sbr)) by
    exact fun retries => h (mr - retries) retries rfl
  intro n
  induction n with
  | zero =>
    intro retries hn
    have hge : ¬ retries < mr := by omega
    match heq : fetch retries with
    | .decodeError =>
      rw [get_urls_eq_decode fetch mr sbr retries heq]
      refine ⟨by simp, fun _ => rfl, ?_, ?_⟩
      · intro ht; have := ht retries; rw [heq] at this; cases this
      · intro e he; rw [List.mem_singleton] at he; exact Or.inl he
    | .success links =>
      rw [get_urls_eq_success fetch mr sbr retries links heq]
      refine ⟨by simp, ?_, ?_, ?_⟩
      · intro hd; cases hd
      · intro ht; have := ht retries; rw [heq] at this; cases this
      · intro e he; rw [List.mem_singleton] at he; exact Or.inl he
    | .transportError =>
      rw [get_urls_eq_transport_neg fetch mr sbr retries heq hge]
      refine ⟨by simp, ?_, ?_, ?_⟩
      · intro hd; cases hd
      · intro _
        exact ⟨rfl, by simp [List.count_cons]; omega⟩
      · intro e he; rw [List.mem_singleton] at he; exact Or.inl he
  | succ n ihn =>
    intro retries hn
    have hlt : retries < mr := by omega
    match heq : fetch retries with
    | .decodeError =>
      rw [get_urls_eq_decode fetch mr sbr retries heq]
      refine ⟨by simp, fun _ => rfl, ?_, ?_⟩
      · intro ht; have := ht retries; rw [heq] at this; cases this
      · intro e he; rw [List.mem_singleton] at he; exact Or.inl he
    | .success links =>
      rw [get_urls_eq_success fetch mr sbr retries links heq]
      refine ⟨by simp, ?_, ?_, ?_⟩
      · intro hd; cases hd
      · intro ht; have := ht retries; rw [heq] at this; cases this
      · intro e he; rw [List.mem_singleton] at he; exact Or.inl he
    | .transportError =>
      obtain ⟨ih1, _, ih3, ih4⟩ := ihn (retries + 1) (by omega)
      rw [get_urls_eq_transport_pos fetch mr sbr retries heq hlt]
      refine ⟨?_, ?_, ?_, ?_⟩
      · rw [hcount]
        omega
      · intro hd; cases hd
      · intro ht
        obtain ⟨hr, hc⟩ := ih3 ht
        refine ⟨hr, ?_⟩
        rw [hcount, hc]
        omega
      · intro e he
        rcases List.mem_cons.mp he with he1 | he1
        · exact Or.inl he1
        · rcases List.mem_append.mp he1 with he2 | he2
          · by_cases hs : 0 < sbr
            · rw [if_pos hs, List.mem_singleton] at he2
              exact Or.inr ⟨he2, hs⟩
            · rw [if_neg hs] at he2
              cases he2
          · exact ih4 e he2

/-- C3: the fetch-and-extract operation never propagates a fetch error: from
the initial call (`retries = 0`) at most `maxRetries + 1` attempts are made; a
decode failure returns an empty link list immediately after a single attempt
with no retry; if every attempt fails with a transport error, exactly
`maxRetries + 1` attempts are made and an empty link list is returned; and the
only events besides attempts are sleeps of `sleepBetweenRetries`, performed
only when that duration is positive. -/
theorem claim_C3 : ∀ (fetch : Nat → FetchOutcome) (mr : Nat) (sbr : ℚ),
    ((get_urls fetch mr sbr 0).2.count .attempt ≤ mr + 1) ∧
    (fetch 0 = .decodeError → get_urls fetch mr sbr 0 = ([], [.attempt])) ∧
    ((∀ i, fetch i = .transportError) →
      (get_urls fetch mr sbr 0).1 = [] ∧
      (get_urls fetch mr sbr 0).2.count .attempt = mr + 1) ∧
    (∀ e ∈ (get_urls fetch mr sbr 0).2, e = .attempt ∨ (e = .sleepEv sbr ∧ 0 < sbr)) := by
  intro fetch mr sbr
  have h := get_urls_spec fetch mr sbr 0
  rwa [Nat.sub_zero] at h

/-- Witness for C3: a decode failure on the first attempt is terminal, and a
permanently failing transport with `maxRetries = 2` returns an empty list. -/
theorem claim_C3_witness :
    get_urls (fun _ => .decodeError) 5 (3 / 10) 0 = ([], [.attempt]) ∧
    (get_urls (fun _ => .transportError) 2 1 0).1 = [] :=
  ⟨(claim_C3 (fun _ => .decodeError) 5 (3 / 10)).2.1 rfl,
   ((claim_C3 (fun _ => .transportError) 2 1).2.2.1 (fun _ => rfl)).1⟩

/-- A worker iteration on an empty frontier does nothing. -/
theorem processOne_empty_queue (cfg : CrawlerConfig) (fetchRes : Url → List Url)
    (s : CrawlerState) (h : s.queue = []) : processOne cfg fetchRes s = s := by
  obtain ⟨q, crawled, f⟩ := s
  simp only at h
  subst h
  rfl

/-- Running any number of worker iterations from an empty frontier does
nothing. -/
theorem crawlRun_empty_queue (cfg : CrawlerConfig) (fetchRes : Url → List Url) :
    ∀ (n : Nat) (s : CrawlerState), s.queue = [] → crawlRun cfg fetchRes n s = s := by
  intro n
  induction n with
  | zero => intro s _; rfl
  | succ n ih =>
    intro s h
    show crawlRun cfg fetchRes n (processOne cfg fetchRes s) = s
    rw [processOne_empty_queue cfg fetchRes s h]
    exact ih s h

/-- C2: a non-root item enters the frontier only as `(child, depth + 1)` out
of a step that dequeued its parent at `depth`: every element of the queue
after a worker step is either a previously queued element or a new item at
depth `d + 1` enqueued only because the depth limit allowed it
(`maxDepth` unset or `d < maxDepth`), its domain equals the root's domain, its
canonical form is not a key of the visited map, and it is crawlable.
Consequently a run with `maxDepth = 0` performs exactly one fetch, drains the
queue, and returns a map whose only key is the root's canonical form. -/
theorem claim_C2 :
    (∀ (cfg : CrawlerConfig) (fetchRes : Url → List Url) (s : CrawlerState) (u : Url)
        (d : Nat) (rest : List (Url × Nat)),
      s.queue = (u, d) :: rest →
      ∀ it ∈ (processOne cfg fetchRes s).queue,
        it ∈ rest ∨
          (it.2 = d + 1 ∧
           (cfg.max_depth = none ∨ ∃ m, cfg.max_depth = some m ∧ d < m) ∧
           it.1.domain = cfg.root.domain ∧
           containsKey (processOne cfg fetchRes s).crawled_urls it.1.get_basic_url = false ∧
           it.1.is_crawlable = true)) ∧
    (∀ (cfg : CrawlerConfig) (fetchRes : Url → List Url) (n : Nat),
      cfg.max_depth = some 0 → 1 ≤ n →
      (crawlRun cfg fetchRes n (initState cfg)).crawled_urls.map Prod.fst =
          [cfg.root.get_basic_url] ∧
        (crawlRun cfg fetchRes n (initState cfg)).queue = [] ∧
        (crawlRun cfg fetchRes n (initState cfg)).fetches = 1) := by
  constructor
  · intro cfg fetchRes s u d rest hq it hit
    obtain ⟨q, crawled, f⟩ := s
    simp only at hq
    subst hq
    by_cases hc : containsKey crawled u.get_basic_url = true
    · simp only [processOne, hc, if_true] at hit
      exact Or.inl hit
    · rw [Bool.not_eq_true] at hc
      simp only [processOne, hc, Bool.false_eq_true, if_false] at hit ⊢
      rcases List.mem_append.mp hit with h1 | h1
      · exact Or.inl h1
      · right
        rcases hmd : cfg.max_depth with _ | m
        · simp only [hmd] at h1
          rw [if_pos trivial] at h1
          obtain ⟨c, hcmem, hce⟩ := List.mem_map.mp h1
          obtain ⟨-, hp⟩ := List.mem_filter.mp hcmem
          rw [Bool.and_eq_true, Bool.and_eq_true] at hp
          obtain ⟨⟨hp1, hp2⟩, hp3⟩ := hp
          subst hce
          refine ⟨rfl, Or.inl rfl, ?_, ?_, hp3⟩
          · exact beq_iff_eq.mp hp1
          · simpa using hp2
        · simp only [hmd] at h1
          by_cases hdm : d < m
          · rw [if_pos (decide_eq_true hdm)] at h1
            obtain ⟨c, hcmem, hce⟩ := List.mem_map.mp h1
            obtain ⟨-, hp⟩ := List.mem_filter.mp hcmem
            rw [Bool.and_eq_true, Bool.and_eq_true] at hp
            obtain ⟨⟨hp1, hp2⟩, hp3⟩ := hp
            subst hce
            refine ⟨rfl, Or.inr ⟨m, rfl, hdm⟩, ?_, ?_, hp3⟩
            · exact beq_iff_eq.mp hp1
            · simpa using hp2
          · rw [if_neg (fun hh => hdm (of_decide_eq_true hh))] at h1
            exact absurd h1 (List.not_mem_nil it)
  · intro cfg fetchRes n hmd hn
    obtain ⟨k, rfl⟩ : ∃ k, n = k + 1 := ⟨n - 1, by omega⟩
    obtain ⟨root, md, mrr, sbrr, rgs, dfl⟩ := cfg
    simp only at hmd
    subst hmd
    have hstep : (processOne ⟨root, some 0, mrr, sbrr, rgs, dfl⟩ fetchRes
          (initState ⟨root, some 0, mrr, sbrr, rgs, dfl⟩)).queue = [] ∧
        (processOne ⟨root, some 0, mrr, sbrr, rgs, dfl⟩ fetchRes
          (initState ⟨root, some 0, mrr, sbrr, rgs, dfl⟩)).crawled_urls.map Prod.fst =
          [root.get_basic_url] ∧
        (processOne ⟨root, some 0, mrr, sbrr, rgs, dfl⟩ fetchRes
          (initState ⟨root, some 0, mrr, sbrr, rgs, dfl⟩)).fetches = 1 :=
      ⟨rfl, rfl, rfl⟩
    have hrun : crawlRun ⟨root, some 0, mrr, sbrr, rgs, dfl⟩ fetchRes (k + 1)
          (initState ⟨root, some 0, mrr, sbrr, rgs, dfl⟩) =
        processOne ⟨root, some 0, mrr, sbrr, rgs, dfl⟩ fetchRes
          (initState ⟨root, some 0, mrr, sbrr, rgs, dfl⟩) := by
      show crawlRun _ fetchRes k (processOne _ fetchRes (initState _)) = _
      exact crawlRun_empty_queue _ fetchRes k _ hstep.1
    rw [hrun]
    exact ⟨hstep.2.1, hstep.1, hstep.2.2⟩

/-- The configuration `exCfg` with `max_depth = 0`. -/
def exCfg0 : CrawlerConfig := ⟨exUrlA, some 0, 5, 3 / 10, false, true⟩

/-- Witness for C2: with `maxDepth` unset, processing the seeded root with a
fetch returning one crawlable same-domain child enqueues it at depth 1 under
the stated conditions; with `maxDepth = 0` the run fetches only the root. -/
theorem claim_C2_witness :
    ((exUrlC, 1) ∈ ([] : List (Url × Nat)) ∨
      ((exUrlC, 1).2 = 0 + 1 ∧
       (exCfg.max_depth = none ∨ ∃ m, exCfg.max_depth = some m ∧ 0 < m) ∧
       (exUrlC, 1).1.domain = exCfg.root.domain ∧
       containsKey (processOne exCfg (fun _ => [exUrlC]) (initState exCfg)).crawled_urls
         (exUrlC, 1).1.get_basic_url = false ∧
       (exUrlC, 1).1.is_crawlable = true)) ∧
    ((crawlRun exCfg0 (fun _ => [exUrlC]) 3 (initState exCfg0)).crawled_urls.map Prod.fst =
        [exCfg0.root.get_basic_url] ∧
      (crawlRun exCfg0 (fun _ => [exUrlC]) 3 (initState exCfg0)).queue = [] ∧
      (crawlRun exCfg0 (fun _ => [exUrlC]) 3 (initState exCfg0)).fetches = 1) :=
  ⟨claim_C2.1 exCfg (fun _ => [exUrlC]) (initState exCfg) exUrlA 0 [] rfl (exUrlC, 1)
      (by decide),
   claim_C2.2 exCfg0 (fun _ => [exUrlC]) 3 rfl (by omega)⟩

/-- Characterization of a successful `splitAtFirst`. -/
theorem splitAtFirst_some (c : Char) :
    ∀ (l pre post : List Char), splitAtFirst c l = some (pre, post) →
      l = pre ++ c :: post ∧ c ∉ pre := by
  intro l
  induction l with
  | nil => intro pre post h; cases h
  | cons a rest ih =>
    intro pre post h
    rw [splitAtFirst] at h
    by_cases hac : a = c
    · rw [if_pos hac] at h
      cases h
      subst hac
      exact ⟨rfl, List.not_mem_nil a⟩
    · rw [if_neg hac] at h
      match hrec : splitAtFirst c rest with
      | none => rw [hrec] at h; cases h
      | some (p, q) =>
        rw [hrec] at h
        cases h
        obtain ⟨he, hnm⟩ := ih p q hrec
        constructor
        · rw [List.cons_append, ← he]
        · intro hm
          rcases List.mem_cons.mp hm with hm | hm
          · exact hac hm.symm
          · exact hnm hm

/-- `splitScheme` finds no scheme when every candidate prefix before the
first `:` fails the scheme-character check. -/
theorem splitScheme_none (l : List Char)
    (h : ∀ pre post, splitAtFirst ':' l = some (pre, post) →
      (pre.all isSchemeChar) = false) :
    splitScheme l = ([], l) := by
  match hs : splitAtFirst ':' l with
  | none =>
    unfold splitScheme
    rw [hs]
  | some (pre, post) =>
    unfold splitScheme
    rw [hs]
    have hno : ¬(pre ≠ [] ∧ pre.all isSchemeChar = true) := by
      intro hco
      rw [h pre post hs] at hco
      exact Bool.false_ne_true hco.2
    show (if pre ≠ [] ∧ pre.all isSchemeChar = true then (pre.map Char.toLower, post)
      else ([], l)) = ([], l)
    rw [if_neg hno]

/-- Parsing a raw string that begins with `#`: everything after `#` is the
fragment, every other component is empty. -/
theorem get_url_info_hash (t : List Char) :
    get_url_info ('#' :: t) =
      some ⟨[], false, [], [], t.filter (fun c => !isRemovedByte c)⟩ := by
  have hfilter : ('#' :: t).filter (fun c => !isRemovedByte c) =
      '#' :: t.filter (fun c => !isRemovedByte c) := by
    rw [List.filter_cons]
    rfl
  have hscheme : splitScheme ('#' :: t.filter (fun c => !isRemovedByte c)) =
      ([], '#' :: t.filter (fun c => !isRemovedByte c)) := by
    apply splitScheme_none
    intro pre post hs
    obtain ⟨he, -⟩ := splitAtFirst_some ':' _ pre post hs
    cases pre with
    | nil =>
      rw [List.nil_append] at he
      injection he with h1 h2
      exact absurd h1 (by decide)
    | cons p pre =>
      rw [List.cons_append] at he
      injection he with h1 h2
      rw [List.all_cons, ← h1]
      rw [show isSchemeChar '#' = false from rfl, Bool.false_and]
  have hsplit : urlsplitM ('#' :: t) =
      some ⟨[], [], [], [], t.filter (fun c => !isRemovedByte c)⟩ := by
    unfold urlsplitM
    rw [hfilter]
    simp only [hscheme]
    rfl
  unfold get_url_info urlparseM
  rw [hsplit]
  rfl

/-- Parsing a raw string that begins with `./#`: the path component is `./`
and the domain is empty. -/
theorem get_url_info_dotslashhash (t : List Char) :
    get_url_info ('.' :: '/' :: '#' :: t) =
      some ⟨[], false, [], S "./", t.filter (fun c => !isRemovedByte c)⟩ := by
  have hfilter : ('.' :: '/' :: '#' :: t).filter (fun c => !isRemovedByte c) =
      '.' :: '/' :: '#' :: t.filter (fun c => !isRemovedByte c) := by
    rw [List.filter_cons, List.filter_cons, List.filter_cons]
    rfl
  have hscheme : splitScheme ('.' :: '/' :: '#' :: t.filter (fun c => !isRemovedByte c)) =
      ([], '.' :: '/' :: '#' :: t.filter (fun c => !isRemovedByte c)) := by
    apply splitScheme_none
    intro pre post hs
    obtain ⟨he, -⟩ := splitAtFirst_some ':' _ pre post hs
    cases pre with
    | nil =>
      rw [List.nil_append] at he
      injection he with h1 h2
      exact absurd h1 (by decide)
    | cons p pre =>
      rw [List.cons_append] at he
      injection he with h1 h2
      cases pre with
      | nil =>
        rw [List.nil_append] at h2
        injection h2 with h3 h4
        exact absurd h3 (by decide)
      | cons q pre =>
        rw [List.cons_append] at h2
        injection h2 with h3 h4
        rw [List.all_cons, List.all_cons, ← h3]
        rw [show isSchemeChar '/' = false from rfl, Bool.false_and, Bool.and_false]
  have hsplit : urlsplitM ('.' :: '/' :: '#' :: t) =
      some ⟨[], [], S "./", [], t.filter (fun c => !isRemovedByte c)⟩ := by
    unfold urlsplitM
    rw [hfilter]
    simp only [hscheme]
    rfl
  unfold get_url_info urlparseM
  rw [hsplit]
  rfl

/-- A path is stable under the ending refactor once normalized; constructed
Urls always carry such paths. -/
def PathStable (p : List Char) : Prop := p ≠ [] → refactorText p = p

/-- The final path of a Url built from parse results with an empty parsed
domain: the parent-relative refactor followed by the ending refactor. -/
theorem build_path_empty_domain (url : List Char) (parent : Url) (upp : Bool)
    (info : UrlInfo) (hd : info.domain = []) :
    (Url.build url (some parent) upp info).path =
      (if refactor_path info.path parent.path url ≠ [] then
        refactorText (refactor_path info.path parent.path url)
      else refactor_path info.path parent.path url) := by
  simp only [Url.build]
  rw [if_pos (Or.inl hd)]

/-- A pattern is a Boolean prefix of itself extended by anything. -/
theorem isPrefixOf_append_self (pat : List Char) : ∀ t, pat.isPrefixOf (pat ++ t) = true := by
  induction pat with
  | nil => intro t; rw [List.isPrefixOf]
  | cons a pat ih =>
    intro t
    rw [List.cons_append, List.isPrefixOf, ih t, beq_self_eq_true]
    rfl

/-- A successful Boolean prefix test yields a decomposition. -/
theorem isPrefixOf_exists (pat : List Char) :
    ∀ l, pat.isPrefixOf l = true → ∃ t, l = pat ++ t := by
  induction pat with
  | nil => intro l _; exact ⟨l, rfl⟩
  | cons a pat ih =>
    intro l h
    cases l with
    | nil =>
      rw [List.isPrefixOf] at h
      · cases h
      · intro hc
        cases hc
    | cons b l2 =>
      rw [List.isPrefixOf, Bool.and_eq_true] at h
      obtain ⟨hab, hrest⟩ := h
      obtain ⟨t, rfl⟩ := ih l2 hrest
      exact ⟨t, by rw [List.cons_append, beq_iff_eq.mp hab]⟩

/-- A raw string starting with the character `#` matches the `#` test. -/
theorem isPrefixOf_hash (t : List Char) : (S "#").isPrefixOf ('#' :: t) = true :=
  isPrefixOf_append_self (S "#") t

/-- A raw string starting with `./#` matches the `./#` test. -/
theorem isPrefixOf_dsh (t : List Char) :
    (S "./#").isPrefixOf ('.' :: '/' :: '#' :: t) = true :=
  isPrefixOf_append_self (S "./#") t

/-- Joining an empty parsed path against the parent: a raw input starting
with `#` keeps the parent path. -/
theorem refactor_path_hash (pp : List Char) (t : List Char) :
    refactor_path [] pp ('#' :: t) = pp := by
  simp only [refactor_path]
  by_cases hpp : pp = []
  · rw [if_neg (fun hco => hco.1 hpp)]
    rw [if_neg (by decide), if_neg (fun hco => hco.1 rfl)]
    exact hpp.symm
  · rw [if_pos ⟨hpp, Or.inl (isPrefixOf_hash t)⟩]

/-- Joining the parsed path `./` against the parent: a raw input starting
with `./#` keeps the parent path when one exists. -/
theorem refactor_path_dotslashhash (pp : List Char) (t : List Char) :
    refactor_path (S "./") pp ('.' :: '/' :: '#' :: t) =
      (if pp = [] then ['/'] else pp) := by
  simp only [refactor_path]
  by_cases hpp : pp = []
  · rw [if_neg (fun hco => hco.1 hpp), if_pos (by decide), hpp, if_pos rfl]
    rfl
  · rw [if_pos ⟨hpp, Or.inr (isPrefixOf_dsh t)⟩, if_neg hpp]

/-- C1: for a Url constructed with a parent whose site it belongs to (parsed
domain empty or equal to the parent's), path resolution follows the stated
rules: at the joining step a path beginning with `./` becomes
`parentPath ++ path[1:]`, a nonempty path not beginning with `/` becomes
`parentPath ++ "/" ++ path`, and a path beginning with `/` is kept as-is
(first conjunct, for raw inputs that are not pure fragment references); a raw
input that is purely a fragment reference keeps the parent's path as the final
path (second conjunct); and
`Url("./test2", parent=Url("http://www.mysite.com/test")).get_basic_url()`
is `"http://mysite.com/test/test2"` (third conjunct). -/
theorem claim_C1 :
    (∀ (path parent_path raw : List Char),
      ¬((S "#").isPrefixOf raw = true ∨ (S "./#").isPrefixOf raw = true) →
      refactor_path path parent_path raw =
        (if (S "./").isPrefixOf path then parent_path ++ path.drop 1
         else if path ≠ [] ∧ ¬((S "/").isPrefixOf path = true) then parent_path ++ '/' :: path
         else path)) ∧
    (∀ (parent : Url) (upp : Bool) (raw : List Char),
      ((S "#").isPrefixOf raw = true ∨ (S "./#").isPrefixOf raw = true) →
      PathStable parent.path →
      (Url.make raw (some parent) upp).map Url.path = some parent.path) ∧
    (((Url.make (S "http://www.mysite.com/test") none true).bind
        (fun p => Url.make (S "./test2") (some p) true)).map Url.get_basic_url =
      some (S "http://mysite.com/test/test2")) := by
  refine ⟨?_, ?_, by decide⟩
  · intro path parent_path raw hfrag
    simp only [refactor_path]
    rw [if_neg (fun hco => hfrag hco.2)]
  · intro parent upp raw hfrag hstable
    rcases hfrag with hfrag | hfrag
    · obtain ⟨t, hraw⟩ := isPrefixOf_exists (S "#") raw hfrag
      have hraw2 : raw = '#' :: t := hraw.trans rfl
      subst hraw2
      rw [show Url.make ('#' :: t) (some parent) upp =
          some (Url.build ('#' :: t) (some parent) upp
            ⟨[], false, [], [], t.filter (fun c => !isRemovedByte c)⟩) from by
        unfold Url.make
        rw [get_url_info_hash t]
        rfl]
      rw [Option.map_some']
      congr 1
      rw [build_path_empty_domain _ _ _ _ rfl, refactor_path_hash]
      by_cases hpp : parent.path = []
      · rw [if_neg (fun hne => hne hpp)]
      · rw [if_pos hpp, hstable hpp]
    · obtain ⟨t, hraw⟩ := isPrefixOf_exists (S "./#") raw hfrag
      have hraw2 : raw = '.' :: '/' :: '#' :: t := hraw.trans rfl
      subst hraw2
      rw [show Url.make ('.' :: '/' :: '#' :: t) (some parent) upp =
          some (Url.build ('.' :: '/' :: '#' :: t) (some parent) upp
            ⟨[], false, [], S "./", t.filter (fun c => !isRemovedByte c)⟩) from by
        unfold Url.make
        rw [get_url_info_dotslashhash t]
        rfl]
      rw [Option.map_some']
      congr 1
      rw [build_path_empty_domain _ _ _ _ rfl, refactor_path_dotslashhash]
      by_cases hpp : parent.path = []
      · rw [if_pos hpp, if_pos (by decide), show refactorText ['/'] = [] from rfl]
        exact hpp.symm
      · rw [if_neg hpp, if_pos hpp, hstable hpp]

/-- Witness for C1: the joining rules at a concrete non-fragment input, and
the fragment rule at a concrete parent. -/
theorem claim_C1_witness :
    (refactor_path (S "z") (S "/t") (S "z") =
      (if (S "./").isPrefixOf (S "z") then (S "/t") ++ (S "z").drop 1
       else if (S "z") ≠ [] ∧ ¬((S "/").isPrefixOf (S "z") = true) then (S "/t") ++ '/' :: (S "z")
       else (S "z"))) ∧
    (Url.make (S "#frag") (some exUrlA) true).map Url.path = some exUrlA.path :=
  ⟨claim_C1.1 (S "z") (S "/t") (S "z") (by decide),
   claim_C1.2.1 exUrlA true (S "#frag") (Or.inl (by decide)) (fun _ => by decide)⟩

/-- Lowercasing is idempotent. -/
theorem toLower_toLower (c : Char) : c.toLower.toLower = c.toLower := by
  by_cases h : c.toNat ≥ 65 ∧ c.toNat ≤ 90
  · have hlow : c.toLower = Char.ofNat (c.toNat + 32) := by
      simp only [Char.toLower]
      rw [if_pos h]
    rw [hlow]
    obtain ⟨h1, h2⟩ := h
    generalize hn : c.toNat = n at h1 h2
    interval_cases n <;> decide
  · have hlow : c.toLower = c := by
      simp only [Char.toLower]
      rw [if_neg h]
    rw [hlow, hlow]

/-- Lowercasing preserves scheme characters. -/
theorem isSchemeChar_toLower (c : Char) (hc : isSchemeChar c = true) :
    isSchemeChar c.toLower = true := by
  by_cases h : c.toNat ≥ 65 ∧ c.toNat ≤ 90
  · have hlow : c.toLower = Char.ofNat (c.toNat + 32) := by
      simp only [Char.toLower]
      rw [if_pos h]
    rw [hlow]
    obtain ⟨h1, h2⟩ := h
    generalize hn : c.toNat = n at h1 h2
    interval_cases n <;> decide
  · have hlow : c.toLower = c := by
      simp only [Char.toLower]
      rw [if_neg h]
    rw [hlow]
    exact hc

/-- `memC` agrees with list membership. -/
theorem memC_eq (c : Char) (l : List Char) : memC c l = decide (c ∈ l) := by
  simp [memC, List.contains, List.elem_eq_mem]

/-- A character absent from a list makes `splitAtFirst` fail. -/
theorem splitAtFirst_none_of_not_mem (c : Char) :
    ∀ l, c ∉ l → splitAtFirst c l = none := by
  intro l
  induction l with
  | nil => intro _; rfl
  | cons a rest ih =>
    intro h
    by_cases hac : a = c
    · exact absurd (hac ▸ List.mem_cons_self a rest) h
    · rw [splitAtFirst, if_neg hac, ih (fun hm => h (List.mem_cons_of_mem a hm))]
      rfl

/-- `splitAtFirst` at a known first occurrence. -/
theorem splitAtFirst_append (c : Char) :
    ∀ (a b : List Char), c ∉ a → splitAtFirst c (a ++ c :: b) = some (a, b) := by
  intro a
  induction a with
  | nil => intro b _; rw [List.nil_append, splitAtFirst, if_pos rfl]
  | cons x a ih =>
    intro b h
    by_cases hxc : x = c
    · exact absurd (hxc ▸ List.mem_cons_self x a) h
    · rw [List.cons_append, splitAtFirst, if_neg hxc,
        ih b (fun hm => h (List.mem_cons_of_mem x hm))]
      rfl

/-- `takeWhile` and `dropWhile` on a list split as satisfying part plus a rest
whose head fails the predicate. -/
theorem takeWhile_dropWhile_append (p : Char → Bool) :
    ∀ (a b : List Char), a.all p = true → (b = [] ∨ ∃ ch t, b = ch :: t ∧ p ch = false) →
      (a ++ b).takeWhile p = a ∧ (a ++ b).dropWhile p = b := by
  intro a
  induction a with
  | nil =>
    intro b _ hb
    rcases hb with rfl | ⟨ch, t, rfl, hch⟩
    · exact ⟨rfl, rfl⟩
    · rw [List.nil_append]
      constructor
      · rw [List.takeWhile_cons, hch]
        rfl
      · rw [List.dropWhile_cons, hch]
        rfl
  | cons x a ih =>
    intro b ha hb
    rw [List.all_cons, Bool.and_eq_true] at ha
    obtain ⟨hx, ha⟩ := ha
    obtain ⟨iht, ihd⟩ := ih b ha hb
    constructor
    · rw [List.cons_append, List.takeWhile_cons, hx, iht]
      rfl
    · rw [List.cons_append, List.dropWhile_cons, hx, ihd]
      rfl

/-- The head of `dropWhile` fails the predicate. -/
theorem dropWhile_head (p : Char → Bool) :
    ∀ (l : List Char), l.dropWhile p = [] ∨ ∃ ch t, l.dropWhile p = ch :: t ∧ p ch = false := by
  intro l
  induction l with
  | nil => exact Or.inl rfl
  | cons x rest ih =>
    rw [List.dropWhile_cons]
    by_cases hx : p x = true
    · rw [if_pos hx]
      exact ih
    · rw [if_neg hx]
      exact Or.inr ⟨x, rest, rfl, Bool.not_eq_true _ ▸ hx⟩

/-- `takeWhile` selects a sublist of its input. -/
theorem mem_takeWhile (p : Char → Bool) :
    ∀ (l : List Char) (c : Char), c ∈ l.takeWhile p → c ∈ l := by
  intro l
  induction l with
  | nil => intro c h; exact absurd h (List.not_mem_nil c)
  | cons x rest ih =>
    intro c h
    rw [List.takeWhile_cons] at h
    by_cases hx : p x = true
    · rw [if_pos hx] at h
      rcases List.mem_cons.mp h with h | h
      · exact h ▸ List.mem_cons_self x rest
      · exact List.mem_cons_of_mem x (ih c h)
    · rw [if_neg hx] at h
      exact absurd h (List.not_mem_nil c)

/-- The double-slash test on an empty string. -/
theorem hasSub_ds_nil : hasSub (S "//") [] = false := by decide

/-- One step of the double-slash substring test. -/
theorem hasSub_ds_cons (c : Char) (rest : List Char) :
    hasSub (S "//") (c :: rest) =
      ((S "//").isPrefixOf (c :: rest) || hasSub (S "//") rest) := by
  rw [hasSub]

/-- The double-slash prefix test succeeds exactly on strings beginning with
two slashes. -/
theorem isPrefixOf_ds (l : List Char) :
    (S "//").isPrefixOf l = true ↔ ∃ b, l = '/' :: '/' :: b := by
  constructor
  · intro h
    obtain ⟨t, rfl⟩ := isPrefixOf_exists _ _ h
    exact ⟨t, rfl⟩
  · rintro ⟨b, rfl⟩
    exact isPrefixOf_append_self (S "//") b

/-- The double-slash substring test succeeds exactly when the string holds
two adjacent slashes. -/
theorem hasSub_ds_iff : ∀ l : List Char,
    hasSub (S "//") l = true ↔ ∃ a b, l = a ++ '/' :: '/' :: b := by
  intro l
  induction l with
  | nil =>
    constructor
    · intro h
      rw [hasSub_ds_nil] at h
      cases h
    · rintro ⟨a, b, ha⟩
      cases a with
      | nil => cases ha
      | cons x a => cases ha
  | cons c rest ih =>
    rw [hasSub_ds_cons]
    constructor
    · intro h
      rw [Bool.or_eq_true] at h
      rcases h with h | h
      · obtain ⟨b, hb⟩ := (isPrefixOf_ds _).mp h
        exact ⟨[], b, hb⟩
      · obtain ⟨a, b, hb⟩ := ih.mp h
        exact ⟨c :: a, b, by rw [hb, List.cons_append]⟩
    · rintro ⟨a, b, ha⟩
      cases a with
      | nil =>
        rw [List.nil_append] at ha
        rw [ha, show (S "//").isPrefixOf ('/' :: '/' :: b) = true from
          (isPrefixOf_ds _).mpr ⟨b, rfl⟩, Bool.true_or]
      | cons x a =>
        injection ha with h1 h2
        rw [ih.mpr ⟨a, b, h2⟩, Bool.or_true]

/-- A replacement pass on a string holding `//` strictly shortens it. -/
theorem replaceDS_lt_of_hasSub : ∀ l : List Char,
    hasSub (S "//") l = true → (replaceDS l).length < l.length := by
  intro l
  induction l using replaceDS.induct with
  | case1 =>
    intro h
    rw [hasSub_ds_nil] at h
    cases h
  | case2 c =>
    intro h
    rw [hasSub_ds_cons, hasSub_ds_nil, Bool.or_false] at h
    obtain ⟨b, hb⟩ := (isPrefixOf_ds _).mp h
    injection hb with h1 h2
    cases h2
  | case3 c₁ c₂ rest h ih =>
    intro _
    simp only [replaceDS, if_pos h, List.length_cons]
    have := replaceDS_length_le rest
    omega
  | case4 c₁ c₂ rest h ih =>
    intro hsub
    rw [hasSub_ds_cons] at hsub
    rw [Bool.or_eq_true] at hsub
    rcases hsub with hsub | hsub
    · obtain ⟨b, hb⟩ := (isPrefixOf_ds _).mp hsub
      injection hb with h1 h2
      injection h2 with h3 h4
      exact absurd ⟨h1, h3⟩ h
    · have := ih hsub
      rw [show replaceDS (c₁ :: c₂ :: rest) = c₁ :: replaceDS (c₂ :: rest) from by
        rw [replaceDS, if_neg h]]
      simp only [List.length_cons] at this ⊢
      omega

/-- A fixpoint of the replacement pass holds no `//`. -/
theorem hasSub_ds_eq_false_of_fix (l : List Char) (hfix : replaceDS l = l) :
    hasSub (S "//") l = false := by
  cases hb : hasSub (S "//") l with
  | false => rfl
  | true =>
    have := replaceDS_lt_of_hasSub l hb
    rw [hfix] at this
    omega

/-- The output of `remove_consecutive_slashes` holds no `//`. -/
theorem rcs_no_ds (l : List Char) :
    hasSub (S "//") (remove_consecutive_slashes l) = false :=
  hasSub_ds_eq_false_of_fix _ (rcs_fixpoint l)

/-- Characters of a replacement pass come from the input. -/
theorem replaceDS_mem : ∀ (l : List Char) (c : Char), c ∈ replaceDS l → c ∈ l := by
  intro l
  induction l using replaceDS.induct with
  | case1 => intro c h; exact h
  | case2 x => intro c h; exact h
  | case3 c₁ c₂ rest h ih =>
    intro c hc
    simp only [replaceDS, if_pos h] at hc
    rcases List.mem_cons.mp hc with hc | hc
    · exact hc ▸ (h.1 ▸ List.mem_cons_self c₁ (c₂ :: rest))
    · exact List.mem_cons_of_mem c₁ (List.mem_cons_of_mem c₂ (ih c hc))
  | case4 c₁ c₂ rest h ih =>
    intro c hc
    simp only [replaceDS, if_neg h] at hc
    rcases List.mem_cons.mp hc with hc | hc
    · exact hc ▸ List.mem_cons_self c₁ (c₂ :: rest)
    · exact List.mem_cons_of_mem c₁ (ih c hc)

/-- Characters of the slash-collapsed string come from the input. -/
theorem rcs_mem : ∀ (l : List Char) (c : Char),
    c ∈ remove_consecutive_slashes l → c ∈ l := by
  intro l
  induction l using remove_consecutive_slashes.induct with
  | case1 l h =>
    intro c hc
    rw [remove_consecutive_slashes, dif_pos h, h] at hc
    exact hc
  | case2 l h ih =>
    intro c hc
    rw [remove_consecutive_slashes, dif_neg h] at hc
    exact replaceDS_mem l c (ih c hc)

/-- A replacement pass preserves the head. -/
theorem replaceDS_head : ∀ l : List Char, (replaceDS l).head? = l.head? := by
  intro l
  induction l using replaceDS.induct with
  | case1 => rfl
  | case2 c => rfl
  | case3 c₁ c₂ rest h ih =>
    rw [show replaceDS (c₁ :: c₂ :: rest) = '/' :: replaceDS rest from by
      rw [replaceDS, if_pos h]]
    rw [List.head?_cons, List.head?_cons, h.1]
  | case4 c₁ c₂ rest h ih =>
    rw [show replaceDS (c₁ :: c₂ :: rest) = c₁ :: replaceDS (c₂ :: rest) from by
      rw [replaceDS, if_neg h]]
    rw [List.head?_cons, List.head?_cons]

/-- Slash collapsing preserves the head. -/
theorem rcs_head : ∀ l : List Char,
    (remove_consecutive_slashes l).head? = l.head? := by
  intro l
  induction l using remove_consecutive_slashes.induct with
  | case1 l h => rw [remove_consecutive_slashes, dif_pos h, h]
  | case2 l h ih =>
    rw [remove_consecutive_slashes, dif_neg h]
    exact ih.trans (replaceDS_head l)

/-- The trailing-slash test succeeds exactly on strings ending in `/`. -/
theorem endsWith_slash_iff (l : List Char) :
    endsWithL (S "/") l = true ↔ ∃ l2, l = l2 ++ ['/'] := by
  unfold endsWithL
  rw [show (S "/").reverse = ['/'] from by decide]
  constructor
  · intro h
    obtain ⟨t, ht⟩ := isPrefixOf_exists ['/'] l.reverse h
    refine ⟨t.reverse, ?_⟩
    have := congrArg List.reverse ht
    rw [List.reverse_reverse] at this
    rw [this, List.reverse_append, show (['/'] : List Char).reverse = ['/'] from by decide]
  · rintro ⟨l2, rfl⟩
    rw [List.reverse_append]
    exact isPrefixOf_append_self ['/'] l2.reverse

/-- A normalized path: no `//`, not the bare slash, no trailing slash.  The
ending refactor always produces such paths and leaves them unchanged. -/
def PathNormal (p : List Char) : Prop :=
  hasSub (S "//") p = false ∧ p ≠ S "/" ∧ endsWithL (S "/") p = false

/-- The empty path is normalized. -/
theorem pathNormal_nil : PathNormal [] := by
  refine ⟨hasSub_ds_nil, by decide, by decide⟩

/-- The ending refactor fixes normalized paths. -/
theorem refactorText_stable (p : List Char) (h : PathNormal p) : refactorText p = p := by
  obtain ⟨h1, h2, h3⟩ := h
  simp only [refactorText]
  have e1 : (if hasSub (S "//") p = true then remove_consecutive_slashes p else p) = p := by
    rw [h1]
    rfl
  rw [e1, if_neg h2, if_neg (by rw [h3]; exact Bool.false_ne_true)]

/-- The ending refactor produces normalized paths. -/
theorem refactorText_normal (t : List Char) : PathNormal (refactorText t) := by
  simp only [refactorText]
  set t1 := if hasSub (S "//") t = true then remove_consecutive_slashes t else t with ht1
  have h1 : hasSub (S "//") t1 = false := by
    rw [ht1]
    by_cases hds : hasSub (S "//") t = true
    · rw [if_pos hds]
      exact rcs_no_ds t
    · rw [if_neg hds]
      cases hb : hasSub (S "//") t with
      | false => rfl
      | true => exact absurd hb hds
  set t2 := if t1 = S "/" then [] else t1 with ht2
  have h2a : hasSub (S "//") t2 = false := by
    rw [ht2]
    by_cases hsl : t1 = S "/"
    · rw [if_pos hsl]
      exact hasSub_ds_nil
    · rw [if_neg hsl]
      exact h1
  have h2b : t2 ≠ S "/" := by
    rw [ht2]
    by_cases hsl : t1 = S "/"
    · rw [if_pos hsl]
      decide
    · rw [if_neg hsl]
      exact hsl
  by_cases hew : endsWithL (S "/") t2 = true
  · rw [if_pos hew]
    obtain ⟨l2, hl2⟩ := (endsWith_slash_iff t2).mp hew
    rw [hl2, List.dropLast_concat]
    refine ⟨?_, ?_, ?_⟩
    · cases hb : hasSub (S "//") l2 with
      | false => rfl
      | true =>
        obtain ⟨a, b, hab⟩ := (hasSub_ds_iff l2).mp hb
        have : hasSub (S "//") t2 = true := by
          apply (hasSub_ds_iff t2).mpr
          refine ⟨a, b ++ ['/'], ?_⟩
          rw [hl2, hab, List.append_assoc]
          rfl
        rw [this] at h2a
        cases h2a
    · intro hsl
      have : hasSub (S "//") t2 = true := by
        apply (hasSub_ds_iff t2).mpr
        refine ⟨[], [], ?_⟩
        rw [hl2, hsl]
        decide
      rw [this] at h2a
      cases h2a
    · cases hb : endsWithL (S "/") l2 with
      | false => rfl
      | true =>
        obtain ⟨l3, hl3⟩ := (endsWith_slash_iff l2).mp hb
        have : hasSub (S "//") t2 = true := by
          apply (hasSub_ds_iff t2).mpr
          refine ⟨l3, [], ?_⟩
          rw [hl2, hl3, List.append_assoc]
          rfl
        rw [this] at h2a
        cases h2a
  · rw [if_neg hew]
    refine ⟨h2a, h2b, ?_⟩
    cases hb : endsWithL (S "/") t2 with
    | false => rfl
    | true => exact absurd hb hew

/-- The ending refactor preserves the head or empties the string. -/
theorem refactorText_head (t : List Char) :
    (refactorText t).head? = t.head? ∨ refactorText t = [] := by
  simp only [refactorText]
  set t1 := if hasSub (S "//") t = true then remove_consecutive_slashes t else t with ht1
  have h1 : t1.head? = t.head? := by
    rw [ht1]
    by_cases hds : hasSub (S "//") t = true
    · rw [if_pos hds]
      exact rcs_head t
    · rw [if_neg hds]
  by_cases hsl : t1 = S "/"
  · rw [if_pos hsl]
    right
    rw [show endsWithL (S "/") ([] : List Char) = false from by decide]
    rfl
  · rw [if_neg hsl]
    by_cases hew : endsWithL (S "/") t1 = true
    · rw [if_pos hew]
      obtain ⟨l2, hl2⟩ := (endsWith_slash_iff t1).mp hew
      rw [hl2, List.dropLast_concat]
      cases l2 with
      | nil => exact Or.inr rfl
      | cons c l3 =>
        left
        rw [← h1, hl2]
        rw [List.cons_append, List.head?_cons, List.head?_cons]
    · rw [if_neg hew]
      exact Or.inl h1

/-- Characters of the ending refactor come from the input. -/
theorem refactorText_mem (t : List Char) (c : Char) (h : c ∈ refactorText t) : c ∈ t := by
  simp only [refactorText] at h
  set t1 := if hasSub (S "//") t = true then remove_consecutive_slashes t else t with ht1
  have h1 : ∀ x, x ∈ t1 → x ∈ t := by
    intro x hx
    rw [ht1] at hx
    by_cases hds : hasSub (S "//") t = true
    · rw [if_pos hds] at hx
      exact rcs_mem t x hx
    · rw [if_neg hds] at hx
      exact hx
  set t2 := if t1 = S "/" then [] else t1 with ht2
  have h2 : ∀ x, x ∈ t2 → x ∈ t := by
    intro x hx
    rw [ht2] at hx
    by_cases hsl : t1 = S "/"
    · rw [if_pos hsl] at hx
      exact absurd hx (List.not_mem_nil x)
    · rw [if_neg hsl] at hx
      exact h1 x hx
  by_cases hew : endsWithL (S "/") t2 = true
  · rw [if_pos hew] at h
    exact h2 c (List.dropLast_subset t2 h)
  · rw [if_neg hew] at h
    exact h2 c h

/-- A successful parentless construction decomposes into parse plus build. -/
theorem make_none_eq (u : List Char) (upp : Bool) (U : Url)
    (h : Url.make u none upp = some U) :
    ∃ info, get_url_info u = some info ∧ U = Url.build u none upp info := by
  unfold Url.make at h
  match hg : get_url_info u with
  | none =>
    rw [hg] at h
    cases h
  | some info =>
    rw [hg, Option.map_some'] at h
    exact ⟨info, rfl, (Option.some.inj h).symm⟩

/-- Protocol of a parentless build. -/
theorem build_none_protocol (u : List Char) (upp : Bool) (info : UrlInfo) :
    (Url.build u none upp info).protocol = info.protocol := by
  simp only [Url.build]
  by_cases hd : info.domain = []
  · rw [if_pos (Or.inl hd)]
    show (if info.protocol = [] then [] else info.protocol) = info.protocol
    by_cases hp : info.protocol = []
    · rw [if_pos hp, hp]
    · rw [if_neg hp]
  · have hnor : ¬(info.domain = [] ∨ info.domain = []) := fun hco => hco.elim hd hd
    rw [if_neg hnor]

/-- Domain of a parentless build. -/
theorem build_none_domain (u : List Char) (upp : Bool) (info : UrlInfo) :
    (Url.build u none upp info).domain = info.domain := by
  simp only [Url.build]
  by_cases hd : info.domain = []
  · rw [if_pos (Or.inl hd)]
    show (if info.domain = [] then [] else info.domain) = info.domain
    rw [if_pos hd, hd]
  · have hnor : ¬(info.domain = [] ∨ info.domain = []) := fun hco => hco.elim hd hd
    rw [if_neg hnor]

/-- Www flag of a parentless build. -/
theorem build_none_www (u : List Char) (upp : Bool) (info : UrlInfo) :
    (Url.build u none upp info).www = info.www := by
  simp only [Url.build]
  by_cases hd : info.domain = []
  · rw [if_pos (Or.inl hd)]
    show (if (¬ info.www = true) ∧ (none : Option Bool) ≠ none then
      (none : Option Bool).getD info.www else info.www) = info.www
    rw [if_neg (fun hco => hco.2 rfl)]
  · have hnor : ¬(info.domain = [] ∨ info.domain = []) := fun hco => hco.elim hd hd
    rw [if_neg hnor]

/-- Path of a parentless build. -/
theorem build_none_path (u : List Char) (upp : Bool) (info : UrlInfo) :
    (Url.build u none upp info).path =
      (if (if info.domain = [] then refactor_path info.path [] u else info.path) ≠ [] then
        refactorText (if info.domain = [] then refactor_path info.path [] u else info.path)
      else (if info.domain = [] then refactor_path info.path [] u else info.path)) := by
  simp only [Url.build]
  by_cases hd : info.domain = []
  · have e : (if info.domain = [] then refactor_path info.path [] u else info.path) =
        refactor_path info.path [] u := if_pos hd
    rw [if_pos (Or.inl hd), e]
  · have e : (if info.domain = [] then refactor_path info.path [] u else info.path) =
        info.path := if_neg hd
    have hnor : ¬(info.domain = [] ∨ info.domain = []) := fun hco => hco.elim hd hd
    rw [if_neg hnor, e]

/-- Parent-shadow protocol of a parentless build equals the local protocol. -/
theorem build_none_parent_protocol (u : List Char) (upp : Bool) (info : UrlInfo) :
    (Url.build u none upp info).parent_protocol = (Url.build u none upp info).protocol := by
  simp only [Url.build]
  by_cases hd : info.domain = []
  · rw [if_pos (Or.inl hd)]
    show (if ([] : List Char) = [] then _ else ([] : List Char)) = _
    rw [if_pos rfl]
  · have hnor : ¬(info.domain = [] ∨ info.domain = []) := fun hco => hco.elim hd hd
    rw [if_neg hnor]
    show (if ([] : List Char) = [] then _ else ([] : List Char)) = _
    rw [if_pos rfl]

/-- Parent-shadow domain of a parentless build equals the local domain. -/
theorem build_none_parent_domain (u : List Char) (upp : Bool) (info : UrlInfo) :
    (Url.build u none upp info).parent_domain = (Url.build u none upp info).domain := by
  simp only [Url.build]
  by_cases hd : info.domain = []
  · rw [if_pos (Or.inl hd)]
    show (if ([] : List Char) = [] then _ else ([] : List Char)) = _
    rw [if_pos rfl]
  · have hnor : ¬(info.domain = [] ∨ info.domain = []) := fun hco => hco.elim hd hd
    rw [if_neg hnor]
    show (if ([] : List Char) = [] then _ else ([] : List Char)) = _
    rw [if_pos rfl]

/-- Raw string of a parentless build. -/
theorem build_none_string_url (u : List Char) (upp : Bool) (info : UrlInfo) :
    (Url.build u none upp info).string_url = u := by
  simp only [Url.build]

/-- Protocol-inheritance flag of a parentless build. -/
theorem build_none_upp (u : List Char) (upp : Bool) (info : UrlInfo) :
    (Url.build u none upp info).use_parent_protocol = upp := by
  simp only [Url.build]

/-- The surfaced protocol of a parentless Url is its own protocol. -/
theorem make_none_getProtocol (u : List Char) (upp : Bool) (U : Url)
    (h : Url.make u none upp = some U) : U.getProtocol = U.protocol := by
  obtain ⟨info, -, rfl⟩ := make_none_eq u upp U h
  unfold Url.getProtocol
  by_cases hc : (Url.build u none upp info).use_parent_protocol = true ∧
      (Url.build u none upp info).domain = (Url.build u none upp info).parent_domain ∧
      ((Url.build u none upp info).protocol = [] ∨
        (S "http").isPrefixOf (Url.build u none upp info).protocol = true)
  · rw [if_pos hc]
    exact build_none_parent_protocol u upp info
  · rw [if_neg hc]

/-- Elements of a filtered list satisfy the filter. -/
theorem all_filter_self (p : Char → Bool) (l : List Char) : (l.filter p).all p = true :=
  List.all_eq_true.mpr (fun _ hc => List.of_mem_filter hc)

/-- A predicate holding on a list holds on any subset of it. -/
theorem all_of_subset (p : Char → Bool) (l m : List Char)
    (hsub : ∀ c, c ∈ m → c ∈ l) (h : l.all p = true) : m.all p = true :=
  List.all_eq_true.mpr (fun c hc => List.all_eq_true.mp h c (hsub c hc))

/-- `takeWhile` keeps only elements satisfying the predicate. -/
theorem takeWhile_all (p : Char → Bool) : ∀ l : List Char, (l.takeWhile p).all p = true := by
  intro l
  induction l with
  | nil => rfl
  | cons x rest ih =>
    rw [List.takeWhile_cons]
    by_cases hx : p x = true
    · rw [if_pos hx, List.all_cons, hx, ih]
      rfl
    · rw [if_neg hx]
      rfl

/-- `dropWhile` selects a sublist of its input. -/
theorem mem_dropWhile (p : Char → Bool) :
    ∀ (l : List Char) (c : Char), c ∈ l.dropWhile p → c ∈ l := by
  intro l
  induction l with
  | nil => intro c h; exact absurd h (List.not_mem_nil c)
  | cons x rest ih =>
    intro c h
    rw [List.dropWhile_cons] at h
    by_cases hx : p x = true
    · rw [if_pos hx] at h
      exact List.mem_cons_of_mem x (ih c h)
    · rw [if_neg hx] at h
      exact h

/-- A failed `splitAtFirst` means the character is absent. -/
theorem splitAtFirst_none_mem (c : Char) :
    ∀ l, splitAtFirst c l = none → c ∉ l := by
  intro l
  induction l with
  | nil => intro _ h; exact absurd h (List.not_mem_nil c)
  | cons a rest ih =>
    intro h hm
    rw [splitAtFirst] at h
    by_cases hac : a = c
    · rw [if_pos hac] at h
      cases h
    · rw [if_neg hac] at h
      match hrec : splitAtFirst c rest with
      | some p => rw [hrec] at h; cases h
      | none =>
        rcases List.mem_cons.mp hm with hm | hm
        · exact hac hm.symm
        · exact ih hrec hm

/-- A netloc delimiter is one of the three delimiter characters. -/
theorem netlocDelim_cases (ch : Char) (h : isNetlocDelim ch = true) :
    ch = '/' ∨ ch = '?' ∨ ch = '#' := by
  unfold isNetlocDelim at h
  rw [Bool.or_eq_true, Bool.or_eq_true] at h
  rcases h with (h | h) | h
  · exact Or.inl (of_decide_eq_true h)
  · exact Or.inr (Or.inl (of_decide_eq_true h))
  · exact Or.inr (Or.inr (of_decide_eq_true h))

/-- What `splitScheme` guarantees about its output: the scheme is made of
scheme characters and is lowercase-fixed, and the remainder's characters come
from the input. -/
theorem splitScheme_spec (l s r : List Char) (h : splitScheme l = (s, r)) :
    (s.all isSchemeChar = true ∧ s.map Char.toLower = s) ∧ (∀ c, c ∈ r → c ∈ l) := by
  unfold splitScheme at h
  match hs : splitAtFirst ':' l with
  | none =>
    rw [hs] at h
    injection h with h1 h2
    subst h1
    subst h2
    exact ⟨⟨rfl, rfl⟩, fun c hc => hc⟩
  | some (pre, post) =>
    have h2 : (if pre ≠ [] ∧ pre.all isSchemeChar = true then (pre.map Char.toLower, post)
        else ([], l)) = (s, r) := by
      rw [← h, hs]
    clear h
    by_cases hcond : pre ≠ [] ∧ pre.all isSchemeChar = true
    · rw [if_pos hcond] at h2
      injection h2 with h1 h2
      subst h1
      subst h2
      obtain ⟨hd, -⟩ := splitAtFirst_some ':' l pre post hs
      refine ⟨⟨?_, ?_⟩, ?_⟩
      · rw [List.all_map]
        exact List.all_eq_true.mpr
          (fun c hc => isSchemeChar_toLower c (List.all_eq_true.mp hcond.2 c hc))
      · rw [List.map_map]
        exact List.map_congr_left (fun c _ => toLower_toLower c)
      · intro c hc
        rw [hd]
        exact List.mem_append.mpr (Or.inr (List.mem_cons_of_mem ':' hc))
    · rw [if_neg hcond] at h2
      injection h2 with h1 h2
      subst h1
      subst h2
      exact ⟨⟨rfl, rfl⟩, fun c hc => hc⟩

/-- What `splitNetlocPair` guarantees: the netloc holds no delimiter, both
parts draw their characters from the input, and when a netloc was produced
the remainder is empty or begins with a delimiter. -/
theorem splitNetlocPair_spec (l n r : List Char) (h : splitNetlocPair l = (n, r)) :
    n.all (fun c => !isNetlocDelim c) = true ∧
    (∀ c, c ∈ n → c ∈ l) ∧ (∀ c, c ∈ r → c ∈ l) ∧
    (n ≠ [] → (r = [] ∨ ∃ ch t, r = ch :: t ∧ isNetlocDelim ch = true)) := by
  unfold splitNetlocPair at h
  by_cases hp : (S "//").isPrefixOf l = true
  · rw [if_pos hp] at h
    injection h with h1 h2
    subst h1
    subst h2
    refine ⟨takeWhile_all _ _, ?_, ?_, ?_⟩
    · intro c hc
      exact List.drop_subset 2 l (mem_takeWhile _ _ c hc)
    · intro c hc
      exact List.drop_subset 2 l (mem_dropWhile _ _ c hc)
    · intro _
      rcases dropWhile_head (fun c => !isNetlocDelim c) (l.drop 2) with hh | ⟨ch, t, ht, hch⟩
      · exact Or.inl hh
      · refine Or.inr ⟨ch, t, ht, ?_⟩
        cases hb : isNetlocDelim ch with
        | true => rfl
        | false => rw [hb] at hch; cases hch
  · rw [if_neg hp] at h
    injection h with h1 h2
    subst h1
    subst h2
    exact ⟨rfl, fun c hc => absurd hc (List.not_mem_nil c), fun c hc => hc,
      fun hne => absurd rfl hne⟩

/-- What one split-with-default stage guarantees: both parts draw from the
input, the separator is absent from the first part, and the first part is
empty or preserves the input's head. -/
theorem splitGetD_spec (c : Char) (l a b : List Char)
    (h : (splitAtFirst c l).getD (l, []) = (a, b)) :
    (∀ x, x ∈ a → x ∈ l) ∧ (∀ x, x ∈ b → x ∈ l) ∧ c ∉ a ∧
    (a = [] ∨ a.head? = l.head?) := by
  match hf : splitAtFirst c l with
  | none =>
    rw [hf, Option.getD_none] at h
    injection h with h1 h2
    subst h1
    subst h2
    exact ⟨fun x hx => hx, fun x hx => absurd hx (List.not_mem_nil x),
      splitAtFirst_none_mem c l hf, Or.inr rfl⟩
  | some pr =>
    obtain ⟨a0, b0⟩ := pr
    rw [hf, Option.getD_some] at h
    injection h with h1 h2
    subst h1
    subst h2
    obtain ⟨hd, hnm⟩ := splitAtFirst_some c l a0 b0 hf
    refine ⟨?_, ?_, hnm, ?_⟩
    · intro x hx
      rw [hd]
      exact List.mem_append.mpr (Or.inl hx)
    · intro x hx
      rw [hd]
      exact List.mem_append.mpr (Or.inr (List.mem_cons_of_mem c hx))
    · cases a0 with
      | nil => exact Or.inl rfl
      | cons c0 t =>
        right
        rw [hd, List.cons_append, List.head?_cons, List.head?_cons]

/-- What a successful `urlsplitM` guarantees about its components. -/
theorem urlsplitM_spec (u : List Char) (sr : SplitResult) (h : urlsplitM u = some sr) :
    (sr.scheme.all isSchemeChar = true ∧ sr.scheme.map Char.toLower = sr.scheme) ∧
    sr.netloc.all (fun c => !isNetlocDelim c) = true ∧
    sr.netloc.all (fun c => !isRemovedByte c) = true ∧
    badBrackets sr.netloc = false ∧
    ('#' ∉ sr.path) ∧ ('?' ∉ sr.path) ∧
    sr.path.all (fun c => !isRemovedByte c) = true ∧
    ('#' ∉ sr.query) ∧
    sr.query.all (fun c => !isRemovedByte c) = true ∧
    (sr.netloc ≠ [] → (sr.path = [] ∨ sr.path.head? = some '/')) := by
  obtain ⟨s, r1, hs⟩ : ∃ a b, splitScheme (u.filter (fun c => !isRemovedByte c)) = (a, b) :=
    ⟨_, _, rfl⟩
  obtain ⟨n, r2, hn⟩ : ∃ a b, splitNetlocPair r1 = (a, b) := ⟨_, _, rfl⟩
  obtain ⟨r3, f, hfr⟩ : ∃ a b, ((splitAtFirst '#' r2).getD (r2, [])) = (a, b) := ⟨_, _, rfl⟩
  obtain ⟨p, q, hpq⟩ : ∃ a b, ((splitAtFirst '?' r3).getD (r3, [])) = (a, b) := ⟨_, _, rfl⟩
  have hall0 : (u.filter (fun c => !isRemovedByte c)).all (fun c => !isRemovedByte c) = true :=
    all_filter_self _ u
  obtain ⟨⟨hsch, hslow⟩, hr1sub⟩ := splitScheme_spec _ s r1 hs
  obtain ⟨hnall, hnsub, hr2sub, hrhead⟩ := splitNetlocPair_spec r1 n r2 hn
  obtain ⟨hr3sub, hfsub, hr3hash, hr3head⟩ := splitGetD_spec '#' r2 r3 f hfr
  obtain ⟨hpsub, hqsub, hpq', hphead⟩ := splitGetD_spec '?' r3 p q hpq
  have hbb : badBrackets n = false ∧ sr = ⟨s, n, p, q, f⟩ := by
    simp only [urlsplitM] at h
    rw [hs, show ((s, r1)).2 = r1 from rfl, hn, show ((n, r2)).1 = n from rfl,
      show ((n, r2)).2 = r2 from rfl] at h
    by_cases hb : badBrackets n = true
    · rw [if_pos hb] at h
      cases h
    · rw [if_neg hb] at h
      rw [hfr, show ((r3, f)).1 = r3 from rfl, hpq] at h
      refine ⟨by cases hbv : badBrackets n with
        | false => rfl
        | true => exact absurd hbv hb, ?_⟩
      exact (Option.some.inj h).symm
  obtain ⟨hbbf, rfl⟩ := hbb
  have hr2all : r2.all (fun c => !isRemovedByte c) = true :=
    all_of_subset _ _ _ (fun c hc => hr1sub c (hr2sub c hc)) hall0
  have hr3all : r3.all (fun c => !isRemovedByte c) = true :=
    all_of_subset _ _ _ hr3sub hr2all
  refine ⟨⟨hsch, hslow⟩, hnall, ?_, hbbf, ?_, ?_, ?_, ?_, ?_, ?_⟩
  · exact all_of_subset _ _ _ (fun c hc => hr1sub c (hnsub c hc)) hall0
  · exact fun hm => hr3hash (hpsub '#' hm)
  · exact hpq'
  · exact all_of_subset _ _ _ hpsub hr3all
  · exact fun hm => hr3hash (hqsub '#' hm)
  · exact all_of_subset _ _ _ hqsub hr3all
  · intro hne
    rcases hrhead hne with hr2 | ⟨ch, t, hche, hch⟩
    · subst hr2
      left
      cases r3 with
      | nil =>
        cases p with
        | nil => rfl
        | cons c0 t0 =>
          rcases hphead with hp0 | hp0
          · cases hp0
          · rw [List.head?_cons, List.head?_nil] at hp0
            cases hp0
      | cons c0 t0 =>
        have : c0 ∈ ([] : List Char) := hr3sub c0 (List.mem_cons_self c0 t0)
        exact absurd this (List.not_mem_nil c0)
    · rcases netlocDelim_cases ch hch with hch' | hch' | hch'
      · subst hch'
        rcases hphead with hp | hp
        · exact Or.inl hp
        · rcases hr3head with hr3 | hr3
          · subst hr3
            cases p with
            | nil => exact Or.inl rfl
            | cons c0 t0 =>
              rw [List.head?_cons, List.head?_nil] at hp
              cases hp
          · right
            rw [hp, hr3, hche, List.head?_cons]
      · subst hch'
        left
        cases p with
        | nil => rfl
        | cons c0 t0 =>
          exfalso
          rcases hphead with hp | hp
          · cases hp
          · rcases hr3head with hr3 | hr3
            · subst hr3
              rw [List.head?_cons, List.head?_nil] at hp
              cases hp
            · rw [hr3, hche, List.head?_cons, List.head?_cons] at hp
              have hc0 : c0 = '?' := Option.some.inj hp
              rw [hc0] at hpq'
              exact hpq' (List.mem_cons_self '?' t0)
      · subst hch'
        left
        cases p with
        | nil => rfl
        | cons c0 t0 =>
          exfalso
          rcases hphead with hp | hp
          · cases hp
          · rcases hr3head with hr3 | hr3
            · subst hr3
              rw [List.head?_cons, List.head?_nil] at hp
              cases hp
            · rw [hr3, hche, List.head?_cons, List.head?_cons] at hp
              have hc0 : c0 = '#' := Option.some.inj hp
              rw [hc0] at hpsub
              exact hr3hash (hpsub '#' (List.mem_cons_self '#' t0))

/-- Scheme characters are never among the bytes removed before parsing. -/
theorem isSchemeChar_not_removed (c : Char) (h : isSchemeChar c = true) :
    isRemovedByte c = false := by
  cases hr : isRemovedByte c with
  | false => rfl
  | true =>
    unfold isRemovedByte at hr
    rw [Bool.or_eq_true, Bool.or_eq_true] at hr
    rcases hr with (hr | hr) | hr <;>
      rw [of_decide_eq_true hr] at h <;> exact absurd h (by decide)

/-- A cons pattern with a different head character is not a Boolean prefix. -/
theorem isPrefixOf_cons_ne (a b : Char) (l m : List Char) (h : a ≠ b) :
    (a :: l).isPrefixOf (b :: m) = false := by
  rw [List.isPrefixOf]
  rw [show (a == b) = false from beq_eq_false_iff_ne.mpr h, Bool.false_and]

/-- Taking at least one element preserves the head. -/
theorem take_head (k : Nat) (hk : 1 ≤ k) (l : List Char) : (l.take k).head? = l.head? := by
  cases l with
  | nil => rw [List.take_nil]
  | cons c t =>
    obtain ⟨k', rfl⟩ : ∃ k', k = k' + 1 := ⟨k - 1, by omega⟩
    rw [List.take_succ_cons, List.head?_cons, List.head?_cons]

/-- `takeWhile` stops strictly early when some element fails the predicate. -/
theorem takeWhile_length_lt (p : Char → Bool) (l : List Char) (c : Char)
    (hc : c ∈ l) (hp : p c = false) : (l.takeWhile p).length < l.length := by
  have hle : (l.takeWhile p).length ≤ l.length := (List.takeWhile_prefix p).length_le
  rcases Nat.lt_or_ge (l.takeWhile p).length l.length with h | h
  · exact h
  · exfalso
    have heq : l.takeWhile p = l :=
      (List.takeWhile_prefix p).eq_of_length (Nat.le_antisymm hle h)
    have := List.all_eq_true.mp (heq ▸ takeWhile_all p l) c hc
    rw [hp] at this
    cases this

/-- What the params split guarantees: both parts draw their characters from
the input, and the path part is empty or preserves the input's head. -/
theorem splitParamsPair_spec (url a b : List Char) (h : splitParamsPair url = (a, b)) :
    (∀ x, x ∈ a → x ∈ url) ∧ (∀ x, x ∈ b → x ∈ url) ∧
    (a = [] ∨ a.head? = url.head?) := by
  unfold splitParamsPair at h
  by_cases hm : memC '/' url = true
  · rw [if_pos hm] at h
    have hsl : '/' ∈ url := of_decide_eq_true (memC_eq '/' url ▸ hm)
    have halsmem : ∀ x, x ∈ (url.reverse.takeWhile (fun c => c ≠ '/')).reverse → x ∈ url := by
      intro x hx
      rw [List.mem_reverse] at hx
      exact List.mem_reverse.mp (mem_takeWhile _ _ x hx)
    have h2 : (match splitAtFirst ';' ((url.reverse.takeWhile (fun c => c ≠ '/')).reverse) with
        | none => (url, ([] : List Char))
        | some (a0, b0) =>
          (url.take (url.length - ((url.reverse.takeWhile (fun c => c ≠ '/')).reverse).length)
            ++ a0, b0)) = (a, b) := h
    clear h
    match hsp : splitAtFirst ';' ((url.reverse.takeWhile (fun c => c ≠ '/')).reverse) with
    | none =>
      rw [hsp] at h2
      injection h2 with h1 h2
      subst h1
      subst h2
      exact ⟨fun x hx => hx, fun x hx => absurd hx (List.not_mem_nil x), Or.inr rfl⟩
    | some pr0 =>
      obtain ⟨a0, b0⟩ := pr0
      rw [hsp] at h2
      injection h2 with h1 h2
      subst h1
      subst h2
      obtain ⟨hdec, -⟩ := splitAtFirst_some ';' _ a0 b0 hsp
      have ha0 : ∀ x, x ∈ a0 → x ∈ url := by
        intro x hx
        exact halsmem x (hdec ▸ List.mem_append.mpr (Or.inl hx))
      have hb0 : ∀ x, x ∈ b0 → x ∈ url := by
        intro x hx
        exact halsmem x (hdec ▸ List.mem_append.mpr (Or.inr (List.mem_cons_of_mem ';' hx)))
      have hlt : ((url.reverse.takeWhile (fun c => c ≠ '/')).reverse).length < url.length := by
        rw [List.length_reverse]
        have hlt0 := takeWhile_length_lt (fun c => decide (c ≠ '/')) url.reverse '/'
          (List.mem_reverse.mpr hsl) (by simp)
        rw [List.length_reverse] at hlt0
        exact hlt0
      refine ⟨?_, hb0, ?_⟩
      · intro x hx
        rcases List.mem_append.mp hx with hx | hx
        · exact List.take_subset _ _ hx
        · exact ha0 x hx
      · right
        have hk : 1 ≤ url.length - ((url.reverse.takeWhile (fun c => c ≠ '/')).reverse).length := by
          omega
        cases htk : url.take (url.length -
            ((url.reverse.takeWhile (fun c => c ≠ '/')).reverse).length) with
        | nil =>
          exfalso
          have hth := take_head _ hk url
          rw [htk] at hth
          cases hu : url with
          | nil => rw [hu] at hsl; exact absurd hsl (List.not_mem_nil '/')
          | cons c t =>
            rw [hu, List.head?_nil, List.head?_cons] at hth
            cases hth
        | cons c0 t0 =>
          rw [List.cons_append, List.head?_cons]
          have hth := take_head _ hk url
          rw [htk, List.head?_cons] at hth
          exact hth
  · rw [if_neg hm] at h
    have h2 : (match splitAtFirst ';' url with
        | none => (url, ([] : List Char))
        | some (a0, b0) => (a0, b0)) = (a, b) := h
    clear h
    match hsp : splitAtFirst ';' url with
    | none =>
      rw [hsp] at h2
      injection h2 with h1 h2
      subst h1
      subst h2
      exact ⟨fun x hx => hx, fun x hx => absurd hx (List.not_mem_nil x), Or.inr rfl⟩
    | some pr0 =>
      obtain ⟨a0, b0⟩ := pr0
      rw [hsp] at h2
      injection h2 with h1 h2
      subst h1
      subst h2
      obtain ⟨hdec, -⟩ := splitAtFirst_some ';' url a0 b0 hsp
      refine ⟨?_, ?_, ?_⟩
      · intro x hx
        exact hdec ▸ List.mem_append.mpr (Or.inl hx)
      · intro x hx
        exact hdec ▸ List.mem_append.mpr (Or.inr (List.mem_cons_of_mem ';' hx))
      · cases a0 with
        | nil => exact Or.inl rfl
        | cons c0 t0 =>
          right
          rw [hdec, List.cons_append, List.head?_cons, List.head?_cons]

/-- What a successful `urlparseM` guarantees about its components. -/
theorem urlparseM_spec (u : List Char) (p : ParseResult) (h : urlparseM u = some p) :
    (p.scheme.all isSchemeChar = true ∧ p.scheme.map Char.toLower = p.scheme) ∧
    (p.netloc.all (fun c => !isNetlocDelim c) = true ∧
     p.netloc.all (fun c => !isRemovedByte c) = true ∧
     badBrackets p.netloc = false) ∧
    ('#' ∉ p.path ∧ p.path.all (fun c => !isRemovedByte c) = true) ∧
    ('#' ∉ p.query ∧ p.query.all (fun c => !isRemovedByte c) = true) ∧
    (p.netloc ≠ [] → (p.path = [] ∨ p.path.head? = some '/')) := by
  unfold urlparseM at h
  match hs : urlsplitM u with
  | none => rw [hs] at h; cases h
  | some sr =>
    rw [hs, Option.map_some'] at h
    have hfp := Option.some.inj h
    obtain ⟨⟨hsch, hslow⟩, hnall, hnrem, hbb, hphash, hpq, hprem, hqhash, hqrem, hphead⟩ :=
      urlsplitM_spec u sr hs
    by_cases hc : sr.scheme ∈ usesParams ∧ memC ';' sr.path = true
    · rw [if_pos hc] at hfp
      obtain ⟨a0, b0, hab⟩ : ∃ a b, splitParamsPair sr.path = (a, b) := ⟨_, _, rfl⟩
      have hfp2 : (⟨sr.scheme, sr.netloc, a0, b0, sr.query, sr.fragment⟩ : ParseResult) = p := by
        rw [← hfp, hab]
      obtain ⟨hasub, -, hahead⟩ := splitParamsPair_spec sr.path a0 b0 hab
      subst hfp2
      refine ⟨⟨hsch, hslow⟩, ⟨hnall, hnrem, hbb⟩, ⟨?_, ?_⟩, ⟨hqhash, hqrem⟩, ?_⟩
      · exact fun hm => hphash (hasub '#' hm)
      · exact all_of_subset _ _ _ hasub hprem
      · intro hne
        rcases hahead with ha | ha
        · exact Or.inl ha
        · rcases hphead hne with hp0 | hp0
          · cases hpnil : a0 with
            | nil => exact Or.inl rfl
            | cons c t =>
              exfalso
              rw [hpnil, List.head?_cons, hp0, List.head?_nil] at ha
              cases ha
          · right
            rw [ha, hp0]
    · rw [if_neg hc] at hfp
      subst hfp
      exact ⟨⟨hsch, hslow⟩, ⟨hnall, hnrem, hbb⟩, ⟨hphash, hprem⟩, ⟨hqhash, hqrem⟩, hphead⟩

/-- Stripping a literal `www.` label changes neither bracket membership, so
the bracket validity check is unaffected. -/
theorem badBrackets_www (t : List Char) : badBrackets (S "www." ++ t) = badBrackets t := by
  unfold badBrackets
  rw [memC_eq '[' (S "www." ++ t), memC_eq ']' (S "www." ++ t), memC_eq '[' t, memC_eq ']' t,
    decide_eq_decide.mpr (show ('[' ∈ S "www." ++ t) ↔ ('[' ∈ t) by
      rw [List.mem_append]; exact or_iff_right (by decide)),
    decide_eq_decide.mpr (show (']' ∈ S "www." ++ t) ↔ (']' ∈ t) by
      rw [List.mem_append]; exact or_iff_right (by decide))]

/-- What a successful `get_url_info` guarantees about its components. -/
theorem get_url_info_spec (u : List Char) (info : UrlInfo) (h : get_url_info u = some info) :
    (info.protocol.all isSchemeChar = true ∧
     info.protocol.map Char.toLower = info.protocol) ∧
    (info.domain.all (fun c => !isNetlocDelim c) = true ∧
     info.domain.all (fun c => !isRemovedByte c) = true ∧
     badBrackets info.domain = false) ∧
    ('#' ∉ info.path ∧ info.path.all (fun c => !isRemovedByte c) = true) ∧
    (info.domain ≠ [] →
      (info.path = [] ∨ (∃ t, info.path = '/' :: t) ∨ (∃ t, info.path = '?' :: t))) := by
  unfold get_url_info at h
  match hp : urlparseM u with
  | none => rw [hp] at h; cases h
  | some p =>
    rw [hp, Option.map_some'] at h
    obtain ⟨⟨hsch, hslow⟩, ⟨hnall, hnrem, hbb⟩, ⟨hphash, hprem⟩, ⟨hqhash, hqrem⟩, hphead⟩ :=
      urlparseM_spec u p hp
    have hfp : (⟨p.scheme, (S "www.").isPrefixOf p.netloc,
        if (S "www.").isPrefixOf p.netloc then p.netloc.drop 4 else p.netloc,
        if p.query = [] then p.path else p.path ++ '?' :: p.query,
        p.fragment⟩ : UrlInfo) = info := Option.some.inj h
    subst hfp
    dsimp only
    have hdomfacts : (if (S "www.").isPrefixOf p.netloc then p.netloc.drop 4 else p.netloc).all
          (fun c => !isNetlocDelim c) = true ∧
        (if (S "www.").isPrefixOf p.netloc then p.netloc.drop 4 else p.netloc).all
          (fun c => !isRemovedByte c) = true ∧
        badBrackets (if (S "www.").isPrefixOf p.netloc then p.netloc.drop 4 else p.netloc)
          = false ∧
        ((if (S "www.").isPrefixOf p.netloc then p.netloc.drop 4 else p.netloc) ≠ [] →
          p.netloc ≠ []) := by
      by_cases hw : (S "www.").isPrefixOf p.netloc = true
      · rw [if_pos hw]
        obtain ⟨t, ht⟩ := isPrefixOf_exists (S "www.") p.netloc hw
        have hdr : p.netloc.drop 4 = t := by rw [ht]; rfl
        rw [hdr]
        have htsub : ∀ x, x ∈ t → x ∈ p.netloc := by
          intro x hx
          rw [ht]
          exact List.mem_append.mpr (Or.inr hx)
        refine ⟨all_of_subset _ _ _ htsub hnall, all_of_subset _ _ _ htsub hnrem, ?_, ?_⟩
        · rw [ht, badBrackets_www] at hbb
          exact hbb
        · intro _
          rw [ht]
          intro hc
          cases hc
      · rw [if_neg hw]
        exact ⟨hnall, hnrem, hbb, fun hne => hne⟩
    have hpathfacts : ('#' ∉ (if p.query = [] then p.path else p.path ++ '?' :: p.query)) ∧
        (if p.query = [] then p.path else p.path ++ '?' :: p.query).all
          (fun c => !isRemovedByte c) = true := by
      by_cases hq : p.query = []
      · rw [if_pos hq]
        exact ⟨hphash, hprem⟩
      · rw [if_neg hq]
        constructor
        · intro hm
          rcases List.mem_append.mp hm with hm | hm
          · exact hphash hm
          · rcases List.mem_cons.mp hm with hm | hm
            · cases hm
            · exact hqhash hm
        · rw [List.all_append, Bool.and_eq_true]
          refine ⟨hprem, ?_⟩
          rw [List.all_cons, Bool.and_eq_true]
          exact ⟨by decide, hqrem⟩
    refine ⟨⟨hsch, hslow⟩, ⟨hdomfacts.1, hdomfacts.2.1, hdomfacts.2.2.1⟩, hpathfacts, ?_⟩
    intro hdne
    have hne : p.netloc ≠ [] := hdomfacts.2.2.2 hdne
    rcases hphead hne with hp0 | hp0
    · by_cases hq : p.query = []
      · rw [if_pos hq, hp0]
        exact Or.inl rfl
      · rw [if_neg hq, hp0, List.nil_append]
        exact Or.inr (Or.inr ⟨p.query, rfl⟩)
    · cases hpc : p.path with
      | nil => rw [hpc, List.head?_nil] at hp0; cases hp0
      | cons c t =>
        rw [hpc, List.head?_cons] at hp0
        have hc : c = '/' := Option.some.inj hp0
        subst hc
        by_cases hq : p.query = []
        · rw [if_pos hq]
          exact Or.inr (Or.inl ⟨t, rfl⟩)
        · rw [if_neg hq, List.cons_append]
          exact Or.inr (Or.inl ⟨t ++ '?' :: p.query, rfl⟩)

/-- With no parent path, the path refactor fixes empty and root-relative
paths. -/
theorem refactor_path_slash (P su : List Char)
    (h : P = [] ∨ ∃ t, P = '/' :: t) : refactor_path P [] su = P := by
  unfold refactor_path
  rw [if_neg (show ¬(([] : List Char) ≠ [] ∧
      ((S "#").isPrefixOf su = true ∨ (S "./#").isPrefixOf su = true)) from
    fun hco => hco.1 rfl)]
  rcases h with rfl | ⟨t, rfl⟩
  · rw [if_neg (show ¬(S "./").isPrefixOf ([] : List Char) = true by decide),
      if_neg (show ¬(([] : List Char) ≠ [] ∧
        ¬(S "/").isPrefixOf ([] : List Char) = true) from fun hco => hco.1 rfl)]
  · rw [if_neg (show ¬(S "./").isPrefixOf ('/' :: t) = true by
      rw [show S "./" = '.' :: ['/'] from rfl, isPrefixOf_cons_ne '.' '/' ['/'] t (by decide)]
      exact Bool.false_ne_true)]
    rw [if_neg (show ¬('/' :: t ≠ [] ∧ ¬(S "/").isPrefixOf ('/' :: t) = true) from
      fun hco => hco.2 (isPrefixOf_append_self (S "/") t))]

/-- With no parent path, the path refactor yields an empty or root-relative
path. -/
theorem refactor_path_none_head (path su : List Char) :
    refactor_path path [] su = [] ∨ ∃ t, refactor_path path [] su = '/' :: t := by
  unfold refactor_path
  rw [if_neg (show ¬(([] : List Char) ≠ [] ∧
      ((S "#").isPrefixOf su = true ∨ (S "./#").isPrefixOf su = true)) from
    fun hco => hco.1 rfl)]
  by_cases h1 : (S "./").isPrefixOf path = true
  · rw [if_pos h1]
    obtain ⟨t, ht⟩ := isPrefixOf_exists _ _ h1
    rw [ht]
    exact Or.inr ⟨t, rfl⟩
  · rw [if_neg h1]
    by_cases h2 : path ≠ [] ∧ ¬(S "/").isPrefixOf path = true
    · rw [if_pos h2]
      exact Or.inr ⟨path, rfl⟩
    · rw [if_neg h2]
      by_cases hp : path = []
      · exact Or.inl hp
      · have hpf : (S "/").isPrefixOf path = true := by
          by_contra hc
          exact h2 ⟨hp, hc⟩
        obtain ⟨t, ht⟩ := isPrefixOf_exists _ _ hpf
        exact Or.inr ⟨t, ht⟩

/-- With no parent path, the path refactor introduces at most slashes. -/
theorem refactor_path_none_mem (path su : List Char) (x : Char)
    (h : x ∈ refactor_path path [] su) : x ∈ path ∨ x = '/' := by
  unfold refactor_path at h
  rw [if_neg (show ¬(([] : List Char) ≠ [] ∧
      ((S "#").isPrefixOf su = true ∨ (S "./#").isPrefixOf su = true)) from
    fun hco => hco.1 rfl)] at h
  by_cases h1 : (S "./").isPrefixOf path = true
  · rw [if_pos h1, List.nil_append] at h
    exact Or.inl (List.drop_subset 1 path h)
  · rw [if_neg h1] at h
    by_cases h2 : path ≠ [] ∧ ¬(S "/").isPrefixOf path = true
    · rw [if_pos h2, List.nil_append] at h
      rcases List.mem_cons.mp h with hx | hx
      · exact Or.inr hx
      · exact Or.inl hx
    · rw [if_neg h2] at h
      exact Or.inl h

/-- A one-character pattern is a suffix of anything extended by it. -/
theorem endsWith_last (l : List Char) (c : Char) : endsWithL [c] (l ++ [c]) = true := by
  unfold endsWithL
  rw [List.reverse_append]
  exact isPrefixOf_append_self [c].reverse l.reverse

/-- Re-parsing a rendered basic url `protocol://domain` plus path reproduces
the same components and renders to the same string, given the invariants that
first-parse outputs satisfy. -/
theorem reparse_http (pr d P : List Char)
    (hhttp : (S "http").isPrefixOf pr = true)
    (hpr2 : pr.all isSchemeChar = true)
    (hpr3 : pr.map Char.toLower = pr)
    (hd1 : d.all (fun c => !isNetlocDelim c) = true)
    (hd2 : d.all (fun c => !isRemovedByte c) = true)
    (hd3 : badBrackets d = false)
    (hP1 : P.all (fun c => !isRemovedByte c) = true)
    (hP2 : '#' ∉ P)
    (hP3 : ';' ∉ P)
    (hP4 : endsWithL (S "?") P = false)
    (hPhead : P = [] ∨ (∃ t, P = '/' :: t) ∨ (d ≠ [] ∧ ∃ t, P = '?' :: t))
    (hPstab : P ≠ [] → refactorText P = P)
    (hw : (S "www.").isPrefixOf d = false) :
    (Url.make (pr ++ S "://" ++ d ++ P) none true).map Url.get_basic_url
      = some (pr ++ S "://" ++ d ++ P) := by
  have hpr1 : pr ≠ [] := by
    intro hn
    rw [hn] at hhttp
    exact absurd hhttp (by decide)
  have hcolon : ':' ∉ pr := by
    intro hm
    have := List.all_eq_true.mp hpr2 ':' hm
    exact absurd this (by decide)
  have hB : pr ++ S "://" ++ d ++ P = pr ++ ':' :: ('/' :: '/' :: (d ++ P)) := by
    rw [List.append_assoc, List.append_assoc]
    rfl
  have hfilter : (pr ++ ':' :: ('/' :: '/' :: (d ++ P))).filter (fun c => !isRemovedByte c)
      = pr ++ ':' :: ('/' :: '/' :: (d ++ P)) := by
    rw [List.filter_eq_self]
    intro a ha
    rcases List.mem_append.mp ha with hx | hx
    · rw [isSchemeChar_not_removed a (List.all_eq_true.mp hpr2 a hx)]
      rfl
    · rcases List.mem_cons.mp hx with rfl | hx
      · decide
      · rcases List.mem_cons.mp hx with rfl | hx
        · decide
        · rcases List.mem_cons.mp hx with rfl | hx
          · decide
          · rcases List.mem_append.mp hx with hx | hx
            · exact List.all_eq_true.mp hd2 a hx
            · exact List.all_eq_true.mp hP1 a hx
  have hscheme : splitScheme (pr ++ ':' :: ('/' :: '/' :: (d ++ P)))
      = (pr, '/' :: '/' :: (d ++ P)) := by
    unfold splitScheme
    rw [splitAtFirst_append ':' pr _ hcolon]
    show (if pr ≠ [] ∧ pr.all isSchemeChar = true
        then (pr.map Char.toLower, '/' :: '/' :: (d ++ P))
        else ([], pr ++ ':' :: ('/' :: '/' :: (d ++ P))))
      = (pr, '/' :: '/' :: (d ++ P))
    rw [if_pos ⟨hpr1, hpr2⟩, hpr3]
  have hPside : P = [] ∨ ∃ ch t, P = ch :: t ∧ (fun c => !isNetlocDelim c) ch = false := by
    rcases hPhead with h | ⟨t, rfl⟩ | ⟨hdne, t, rfl⟩
    · exact Or.inl h
    · exact Or.inr ⟨'/', t, rfl, by decide⟩
    · exact Or.inr ⟨'?', t, rfl, by decide⟩
  have htd := takeWhile_dropWhile_append (fun c => !isNetlocDelim c) d P hd1 hPside
  have hnet : splitNetlocPair ('/' :: '/' :: (d ++ P)) = (d, P) := by
    unfold splitNetlocPair
    rw [show ('/' :: '/' :: (d ++ P)) = S "//" ++ (d ++ P) from rfl]
    rw [isPrefixOf_append_self (S "//") (d ++ P)]
    rw [if_pos rfl]
    rw [show (S "//" ++ (d ++ P)).drop 2 = d ++ P from rfl]
    rw [htd.1, htd.2]
  obtain ⟨p2, q2, hq, hPeq⟩ : ∃ p2 q2, (splitAtFirst '?' P).getD (P, []) = (p2, q2) ∧
      (if q2 = [] then p2 else p2 ++ '?' :: q2) = P := by
    by_cases hqm : '?' ∈ P
    · match hsp : splitAtFirst '?' P with
      | none => exact absurd hqm (splitAtFirst_none_mem '?' P hsp)
      | some pr0 =>
        obtain ⟨a, b⟩ := pr0
        obtain ⟨hPd, hna⟩ := splitAtFirst_some '?' P a b hsp
        have hbne : b ≠ [] := by
          intro hb
          subst hb
          have hlast : endsWithL (S "?") (a ++ '?' :: ([] : List Char)) = true :=
            endsWith_last a '?'
          rw [← hPd, hP4] at hlast
          cases hlast
        refine ⟨a, b, rfl, ?_⟩
        rw [if_neg hbne]
        exact hPd.symm
    · exact ⟨P, [], by rw [splitAtFirst_none_of_not_mem '?' P hqm]; rfl, by rw [if_pos rfl]⟩
  obtain ⟨hp2sub, hq2sub, hp2q, hp2head⟩ := splitGetD_spec '?' P p2 q2 hq
  have hsplitM : urlsplitM (pr ++ S "://" ++ d ++ P) = some ⟨pr, d, p2, q2, []⟩ := by
    rw [hB]
    simp only [urlsplitM]
    rw [hfilter, hscheme,
      show ((pr, '/' :: '/' :: (d ++ P))).2 = '/' :: '/' :: (d ++ P) from rfl,
      show ((pr, '/' :: '/' :: (d ++ P))).1 = pr from rfl,
      hnet, show ((d, P)).1 = d from rfl, show ((d, P)).2 = P from rfl]
    rw [if_neg (show ¬badBrackets d = true by rw [hd3]; exact Bool.false_ne_true)]
    rw [splitAtFirst_none_of_not_mem '#' P hP2, Option.getD_none]
    rw [show ((P, ([] : List Char))).1 = P from rfl, hq]
  have hparse : urlparseM (pr ++ S "://" ++ d ++ P) = some ⟨pr, d, p2, [], q2, []⟩ := by
    unfold urlparseM
    rw [hsplitM, Option.map_some']
    refine congrArg some ?_
    dsimp only
    rw [if_neg (show ¬(pr ∈ usesParams ∧ memC ';' p2 = true) from fun hco =>
      hP3 (hp2sub ';' (of_decide_eq_true (memC_eq ';' p2 ▸ hco.2))))]
  have hinfo2 : get_url_info (pr ++ S "://" ++ d ++ P) = some ⟨pr, false, d, P, []⟩ := by
    unfold get_url_info
    rw [hparse, Option.map_some']
    refine congrArg some ?_
    dsimp only
    rw [hw, if_neg (show ¬(false = true) by decide), hPeq]
  have hmk : Url.make (pr ++ S "://" ++ d ++ P) none true
      = some (Url.build (pr ++ S "://" ++ d ++ P) none true ⟨pr, false, d, P, []⟩) := by
    unfold Url.make
    rw [hinfo2, Option.map_some']
  have hprot : (Url.build (pr ++ S "://" ++ d ++ P) none true ⟨pr, false, d, P, []⟩).protocol
      = pr := build_none_protocol _ _ _
  have hdom : (Url.build (pr ++ S "://" ++ d ++ P) none true ⟨pr, false, d, P, []⟩).domain
      = d := build_none_domain _ _ _
  have hpath : (Url.build (pr ++ S "://" ++ d ++ P) none true ⟨pr, false, d, P, []⟩).path
      = P := by
    have h0 : (Url.build (pr ++ S "://" ++ d ++ P) none true ⟨pr, false, d, P, []⟩).path
        = (if (if d = [] then refactor_path P [] (pr ++ S "://" ++ d ++ P) else P) ≠ [] then
            refactorText (if d = [] then refactor_path P [] (pr ++ S "://" ++ d ++ P) else P)
          else (if d = [] then refactor_path P [] (pr ++ S "://" ++ d ++ P) else P)) :=
      build_none_path _ _ _
    by_cases hd : d = []
    · rw [if_pos hd] at h0
      have hsl : P = [] ∨ ∃ t, P = '/' :: t := by
        rcases hPhead with h | h | h
        · exact Or.inl h
        · exact Or.inr h
        · exact absurd hd h.1
      rw [refactor_path_slash P _ hsl] at h0
      by_cases hP : P = []
      · rw [h0, if_neg (fun hne => hne hP)]
      · rw [h0, if_pos hP]
        exact hPstab hP
    · rw [if_neg hd] at h0
      by_cases hP : P = []
      · rw [h0, if_neg (fun hne => hne hP)]
      · rw [h0, if_pos hP]
        exact hPstab hP
  have hgp : (Url.build (pr ++ S "://" ++ d ++ P) none true
        ⟨pr, false, d, P, []⟩).getProtocol
      = (Url.build (pr ++ S "://" ++ d ++ P) none true ⟨pr, false, d, P, []⟩).protocol :=
    make_none_getProtocol _ true _ hmk
  have hUbasic : (Url.build (pr ++ S "://" ++ d ++ P) none true
        ⟨pr, false, d, P, []⟩).get_basic_url
      = pr ++ S "://" ++ d ++ P := by
    unfold Url.get_basic_url
    rw [hgp, hprot, hdom, hpath, if_pos hhttp]
  unfold Url.make
  rw [hinfo2, Option.map_some', Option.map_some', hUbasic]

/-- C7 (amended): for every parentless construction `Url(u)` whose resulting
domain does not itself begin with a further literal `www.` label, whose
resulting path contains no `;`, and whose resulting path does not end in `?`,
rendering the basic url and re-parsing it reproduces the same basic url:
`Url(Url(u).get_basic_url()).get_basic_url() == Url(u).get_basic_url()`. -/
theorem claim_C7 (u : List Char) (U : Url)
    (hU : Url.make u none true = some U)
    (h1 : (S "www.").isPrefixOf U.domain = false)
    (h2 : ';' ∉ U.path)
    (h3 : endsWithL (S "?") U.path = false) :
    (Url.make U.get_basic_url none true).map Url.get_basic_url
      = some U.get_basic_url := by
  obtain ⟨info, hinfo, rfl⟩ := make_none_eq u true U hU
  obtain ⟨⟨hsch, hslow⟩, ⟨hd1, hd2, hd3⟩, ⟨hphash, hprem⟩, hphead⟩ :=
    get_url_info_spec u info hinfo
  have hdom : (Url.build u none true info).domain = info.domain :=
    build_none_domain u true info
  have hprot : (Url.build u none true info).protocol = info.protocol :=
    build_none_protocol u true info
  have hgp : (Url.build u none true info).getProtocol
      = (Url.build u none true info).protocol :=
    make_none_getProtocol u true _ hU
  by_cases hhttp : (S "http").isPrefixOf (Url.build u none true info).getProtocol = true
  · obtain ⟨X, hXdef⟩ : ∃ X, (if info.domain = [] then refactor_path info.path [] u
        else info.path) = X := ⟨_, rfl⟩
    have hPX : (Url.build u none true info).path = (if X ≠ [] then refactorText X else X) := by
      rw [build_none_path u true info, hXdef]
    have hXmem : ∀ x, x ∈ X → x ∈ info.path ∨ x = '/' := by
      intro x hx
      rw [← hXdef] at hx
      by_cases hdm : info.domain = []
      · rw [if_pos hdm] at hx
        exact refactor_path_none_mem info.path u x hx
      · rw [if_neg hdm] at hx
        exact Or.inl hx
    have hPmem : ∀ x, x ∈ (Url.build u none true info).path → x ∈ info.path ∨ x = '/' := by
      intro x hx
      rw [hPX] at hx
      by_cases hXe : X = []
      · rw [if_neg (fun hne => hne hXe)] at hx
        exact hXmem x hx
      · rw [if_pos hXe] at hx
        exact hXmem x (refactorText_mem X x hx)
    have hP1 : ((Url.build u none true info).path).all (fun c => !isRemovedByte c) = true := by
      refine List.all_eq_true.mpr ?_
      intro x hx
      rcases hPmem x hx with h | rfl
      · exact List.all_eq_true.mp hprem x h
      · decide
    have hP2 : '#' ∉ (Url.build u none true info).path := by
      intro hm
      rcases hPmem '#' hm with h | h
      · exact hphash h
      · exact absurd h (by decide)
    have hPstab : (Url.build u none true info).path ≠ [] →
        refactorText ((Url.build u none true info).path)
          = (Url.build u none true info).path := by
      intro hne
      rw [hPX] at hne ⊢
      by_cases hXe : X = []
      · rw [if_neg (fun hne2 => hne2 hXe)] at hne
        exact absurd hXe hne
      · rw [if_pos hXe]
        exact refactorText_stable _ (refactorText_normal X)
    have hPheadFact : (Url.build u none true info).path = [] ∨
        (∃ t, (Url.build u none true info).path = '/' :: t) ∨
        (info.domain ≠ [] ∧ ∃ t, (Url.build u none true info).path = '?' :: t) := by
      by_cases hXe : X = []
      · left
        rw [hPX, if_neg (fun hne => hne hXe)]
        exact hXe
      · have hPrt : (Url.build u none true info).path = refactorText X := by
          rw [hPX, if_pos hXe]
        rcases refactorText_head X with hh | hh
        · have hXhead : (∃ t, X = '/' :: t) ∨ (info.domain ≠ [] ∧ ∃ t, X = '?' :: t) := by
            by_cases hdm : info.domain = []
            · have hXr : X = refactor_path info.path [] u := by
                rw [← hXdef, if_pos hdm]
              rcases refactor_path_none_head info.path u with h | ⟨t, h⟩
              · exact absurd (hXr.trans h) hXe
              · exact Or.inl ⟨t, hXr.trans h⟩
            · have hXr : X = info.path := by
                rw [← hXdef, if_neg hdm]
              rcases hphead hdm with h | ⟨t, h⟩ | ⟨t, h⟩
              · exact absurd (hXr.trans h) hXe
              · exact Or.inl ⟨t, hXr.trans h⟩
              · exact Or.inr ⟨hdm, t, hXr.trans h⟩
          rcases hXhead with ⟨t, hXv⟩ | ⟨hdm, t, hXv⟩
          · cases hrtc : refactorText X with
            | nil =>
              left
              rw [hPrt, hrtc]
            | cons c t2 =>
              have hh2 : (refactorText X).head? = X.head? := hh
              rw [hrtc, hXv, List.head?_cons, List.head?_cons] at hh2
              have hc : c = '/' := Option.some.inj hh2
              subst hc
              exact Or.inr (Or.inl ⟨t2, by rw [hPrt, hrtc]⟩)
          · cases hrtc : refactorText X with
            | nil =>
              left
              rw [hPrt, hrtc]
            | cons c t2 =>
              have hh2 : (refactorText X).head? = X.head? := hh
              rw [hrtc, hXv, List.head?_cons, List.head?_cons] at hh2
              have hc : c = '?' := Option.some.inj hh2
              subst hc
              exact Or.inr (Or.inr ⟨hdm, t2, by rw [hPrt, hrtc]⟩)
        · left
          rw [hPrt, hh]
    have hhttp' : (S "http").isPrefixOf info.protocol = true := by
      rw [← hprot, ← hgp]
      exact hhttp
    have hw' : (S "www.").isPrefixOf info.domain = false := by
      rw [← hdom]
      exact h1
    have hbasic : (Url.build u none true info).get_basic_url
        = info.protocol ++ S "://" ++ info.domain ++ (Url.build u none true info).path := by
      unfold Url.get_basic_url
      rw [if_pos hhttp, hgp, hprot, hdom]
    rw [hbasic]
    exact reparse_http info.protocol info.domain ((Url.build u none true info).path)
      hhttp' hsch hslow hd1 hd2 hd3 hP1 hP2 h2 h3 hPheadFact hPstab hw'
  · have hbasic : (Url.build u none true info).get_basic_url = u := by
      unfold Url.get_basic_url
      rw [if_neg hhttp]
      exact build_none_string_url u true info
    rw [hbasic, hU, Option.map_some']
    exact congrArg some hbasic

/-- C7 counterexample to the unconditional claim: for the input
`http://www.www.a.com/p`, the constructed basic url is
`http://www.a.com/p` (one literal `www.` label stripped), but re-parsing that
basic url strips a further `www.` label and renders `http://a.com/p`, so
rendering is not idempotent under re-parsing. -/
theorem claim_C7_counterexample :
    ((Url.make (S "http://www.www.a.com/p") none true).map Url.get_basic_url
      = some (S "http://www.a.com/p")) ∧
    ((Url.make (S "http://www.a.com/p") none true).map Url.get_basic_url
      = some (S "http://a.com/p")) ∧
    S "http://a.com/p" ≠ S "http://www.a.com/p" := by
  refine ⟨by decide, by decide, by decide⟩

/-- C7 witness: the amended theorem applied at the concrete input
`http://ab.com/x`, whose hypotheses all hold. -/
theorem claim_C7_witness :
    (S "www.").isPrefixOf exUrlA.domain = false ∧ ';' ∉ exUrlA.path ∧
    endsWithL (S "?") exUrlA.path = false ∧
    (Url.make exUrlA.get_basic_url none true).map Url.get_basic_url
      = some exUrlA.get_basic_url :=
  ⟨by decide, by decide, by decide,
    claim_C7 (S "http://ab.com/x") exUrlA exUrlA_make (by decide) (by decide) (by decide)⟩
